import Mathlib

/-!
Verification of the resilient structured-response decoder of
`src/services/llm_client.py` (`_safe_json` and `_try_fix_json`).

The Python code is shallowly embedded over `List Char`:

* `pyStripChars`, `splitNL`, `joinNL`, `rstripComma` model the Python string
  operations `str.strip()`, `str.split("\n")`, `"\n".join(...)`,
  `str.rstrip(',')` used by the decoder;
* `fenceLoop` / `defenceChars` model the markdown-fence stripping loop at the
  top of `_safe_json`;
* `tryFixChars` models `_try_fix_json`;
* `loadsChars` models `json.loads` on `str` input, following the reference
  scanner of CPython's `json` package (`json/decoder.py`, `json/scanner.py`)
  with the default arguments `_safe_json` uses.  Number literals with a
  fractional part or an exponent (Python floats) are modelled as exact decimal
  literals (`Json.dec`), since binary floating point is outside the embedding;
  integer literals become `Json.num`.  A `\uXXXX` escape denoting a lone
  surrogate, which Python stores as an unpaired surrogate code unit, has no
  `Char` counterpart and is modelled as U+FFFD;
* `dumpsChars` models `json.dumps` with its default arguments (the separators
  `", "`/`": "` and `ensure_ascii=True`); for `Json.dec` it prints the exact
  decimal literal that was parsed, standing in for Python's float `repr`;
* `safeJsonChars` models `_safe_json` itself, including the truthiness test
  `if fixed_text:` on the repair candidate and the diagnostic fallback dict.

The recursive scanner is driven by a fuel parameter so that every definition
is structurally recursive and evaluates inside the kernel; `loadsChars` passes
`2 * length + 2` fuel, which the sufficiency lemmas below show is never
exhausted on the inputs the theorems touch.
-/

namespace HotelReview

/-! ## Characters and basic Python string operations -/

/-- The four JSON whitespace characters of `json`'s `WHITESPACE` regex. -/
def isJsonWs (c : Char) : Bool :=
  c == ' ' || c == '\t' || c == '\n' || c == '\r'

/-- Whitespace for Python's `str.strip()` / `str.isspace()` (the ASCII ones
plus the Unicode space characters Python treats as whitespace). -/
def isPySpace (c : Char) : Bool :=
  c == ' ' || c == '\t' || c == '\n' || c == '\r' ||
  c.toNat == 0x0b || c.toNat == 0x0c ||
  (0x1c ≤ c.toNat && c.toNat ≤ 0x1f) ||
  c.toNat == 0x85 || c.toNat == 0xa0 || c.toNat == 0x1680 ||
  (0x2000 ≤ c.toNat && c.toNat ≤ 0x200a) ||
  c.toNat == 0x2028 || c.toNat == 0x2029 || c.toNat == 0x202f ||
  c.toNat == 0x205f || c.toNat == 0x3000

/-- The opening-brace character, kept as a named constant. -/
def obrace : Char := Char.ofNat 123

/-- The closing-brace character, kept as a named constant. -/
def cbrace : Char := Char.ofNat 125

/-- The double-quote character. -/
def dquote : Char := Char.ofNat 34

/-- The backtick character used by markdown fences. -/
def btick : Char := Char.ofNat 96

/-- Python `text.strip()` on a character list. -/
def pyStripChars (cs : List Char) : List Char :=
  ((cs.dropWhile isPySpace).reverse.dropWhile isPySpace).reverse

/-- The right-hand half of `strip`: remove trailing whitespace only. -/
def rstripWs (cs : List Char) : List Char :=
  (cs.reverse.dropWhile isPySpace).reverse

/-- Python `text.split("\n")`. -/
def splitNL : List Char → List (List Char)
  | [] => [[]]
  | c :: cs =>
    if c = '\n' then [] :: splitNL cs
    else
      match splitNL cs with
      | [] => [[c]]
      | l :: ls => (c :: l) :: ls

/-- Python `"\n".join(lines)`. -/
def joinNL : List (List Char) → List Char
  | [] => []
  | [l] => l
  | l :: l2 :: ls => l ++ '\n' :: joinNL (l2 :: ls)

/-- Python `text.startswith("```")`. -/
def startsWithTicks (cs : List Char) : Bool :=
  match cs with
  | a :: b :: c :: _ => a == btick && b == btick && c == btick
  | _ => false

/-- A line that is exactly a closing fence after stripping: `"```"`. -/
def ticks3 : List Char := [btick, btick, btick]

/-- Python `text.rstrip(',')`. -/
def rstripComma (cs : List Char) : List Char :=
  (cs.reverse.dropWhile (fun c => c == ',')).reverse

/-! ## The fence stripper of `_safe_json` (lines 141–157) -/

/-- One pass of the `for line in lines` loop of `_safe_json`: skip everything
until the opening fence line, collect lines until a line that strips to
`"```"`, drop the rest. -/
def fenceLoop : List (List Char) → Bool → List (List Char)
  | [], _ => []
  | l :: ls, inJson =>
    let st := pyStripChars l
    if startsWithTicks st && !inJson then fenceLoop ls true
    else if st = ticks3 then []
    else if inJson then l :: fenceLoop ls inJson
    else fenceLoop ls inJson

/-- The de-fenced text `_safe_json` hands to `json.loads`: strip the input,
and when it starts with a fence run the fence loop and re-join the collected
lines. -/
def defenceChars (cs : List Char) : List Char :=
  let t := pyStripChars cs
  if startsWithTicks t then joinNL (fenceLoop (splitNL t) false) else t

/-! ## The repair routine `_try_fix_json` (lines 179–227) -/

/-- Scan state of the character loop of `_try_fix_json`: whether the cursor is
inside a quoted string, whether the previous character was an unconsumed
backslash, and the offset just after the last comma/close-bracket/close-brace
seen outside a string. -/
structure FixState where
  insideStr : Bool
  escNext : Bool
  lastClean : Nat
deriving DecidableEq, Repr

/-- One step of the `for i, char in enumerate(text)` loop of `_try_fix_json`. -/
def fixScanStep (st : FixState) (ic : Nat × Char) : FixState :=
  if st.escNext then { st with escNext := false }
  else if ic.2 == '\\' then { st with escNext := true }
  else
    let st1 :=
      if ic.2 == dquote then { st with insideStr := !st.insideStr } else st
    if !st1.insideStr && (ic.2 == ',' || ic.2 == ']' || ic.2 == cbrace) then
      { st1 with lastClean := ic.1 + 1 }
    else st1

/-- The full scan of `_try_fix_json` over the stripped text. -/
def fixScan (cs : List Char) : FixState :=
  cs.enum.foldl fixScanStep ⟨false, false, 0⟩

/-- Model of `_try_fix_json`: `none` is Python's `return None`. -/
def tryFixChars (text : List Char) : Option (List Char) :=
  if text.isEmpty then none
  else
    let t := pyStripChars text
    let ob := t.count obrace
    let cb := t.count cbrace
    let obk := t.count '['
    let cbk := t.count ']'
    if ob > cb || obk > cbk then
      let st := fixScan t
      let t2 := if st.insideStr && st.lastClean > 0 then t.take st.lastClean else t
      let ob2 := t2.count obrace
      let cb2 := t2.count cbrace
      let obk2 := t2.count '['
      let cbk2 := t2.count ']'
      some (rstripComma t2 ++ List.replicate (obk2 - cbk2) ']' ++
            List.replicate (ob2 - cb2) cbrace)
    else none

/-! ## JSON values

The value domain of `json.loads`.  `num` is an integer literal (Python `int`);
`dec` is a literal with a fractional part or exponent, kept as the exact
decimal the scanner matched (standing in for Python's `float`); `nan`/`inf`
are the `NaN`/`Infinity` constants.  Sequences and mappings are their own
inductives so that every traversal below is plain structural recursion. -/

/-- The exponent part of a decimal literal: the `e`/`E` character, the
optional explicit sign character, and the digit characters. -/
structure DecExp where
  eChar : Char
  sgn : Option Char
  digs : List Char
deriving DecidableEq, Repr

mutual
inductive Json where
  | null
  | bool (b : Bool)
  | num (n : Int)
  | dec (neg : Bool) (ip : List Char) (fp : List Char) (ex : Option DecExp)
  | nan
  | inf (neg : Bool)
  | str (s : String)
  | arr (elems : JsonList)
  | obj (fields : JsonFields)
inductive JsonList where
  | nil
  | cons (hd : Json) (tl : JsonList)
inductive JsonFields where
  | fnil
  | fcons (key : String) (val : Json) (tl : JsonFields)
end

/-- Convert a Lean list of values into a `JsonList`. -/
def toJL : List Json → JsonList
  | [] => .nil
  | x :: xs => .cons x (toJL xs)

/-- Convert a Lean association list into `JsonFields`. -/
def toJF : List (String × Json) → JsonFields
  | [] => .fnil
  | (k, v) :: ps => .fcons k v (toJF ps)

/-- Insertion into a Python `dict` seen as an ordered association list: an
existing key keeps its position and gets the new value, a new key is appended. -/
def dictIns : JsonFields → String → Json → JsonFields
  | .fnil, k, v => .fcons k v .fnil
  | .fcons k0 v0 t, k, v =>
    if k0 = k then .fcons k0 v t else .fcons k0 v0 (dictIns t k v)

/-- Python `dict(pairs)` over scanned key/value pairs, as an ordered fold of
`dictIns` starting from the accumulated dict. -/
def dictFold (acc : JsonFields) : JsonFields → JsonFields
  | .fnil => acc
  | .fcons k v t => dictFold (dictIns acc k v) t

/-- Python `dict(pairs)` for the pair list produced by the object scanner. -/
def dictOf (ps : JsonFields) : JsonFields := dictFold .fnil ps

/-- Concatenation of two field lists, used to state how `dictFold` acts on
pair lists whose keys are fresh. -/
def appendF : JsonFields → JsonFields → JsonFields
  | .fnil, b => b
  | .fcons k v t, b => .fcons k v (appendF t b)

/-- Membership of a key in a field list. -/
def hasKeyF : JsonFields → String → Bool
  | .fnil, _ => false
  | .fcons k _ t, key => k == key || hasKeyF t key

/-- Whether a decoded value is a mapping containing the given key. -/
def hasKey : Json → String → Bool
  | .obj fs, key => hasKeyF fs key
  | _, _ => false

/-! ## Decode errors

`json.JSONDecodeError` carries a message and a character offset; its `str()`
adds the line and column computed from the document. -/

/-- A `json.JSONDecodeError`: the bare message and the character offset. -/
structure JsonError where
  msg : String
  pos : Nat
deriving DecidableEq, Repr

def expValMsg : String := "Expecting value"
def untermMsg : String := "Unterminated string starting at"
def badUniMsg : String := "Invalid \\uXXXX escape"
def expCommaMsg : String := "Expecting ',' delimiter"
def expColonMsg : String := "Expecting ':' delimiter"
def expKeyMsg : String := "Expecting property name enclosed in double quotes"
def extraMsg : String := "Extra data"
def bomMsg : String := "Unexpected UTF-8 BOM (decode using utf-8-sig)"

/-- Fuel exhaustion of the model scanner; unreachable at the fuel
`loadsChars` supplies. -/
def fuelMsg : String := "Model scanner fuel exhausted"

/-- The character for a hex digit, lowercase as in Python's formatting. -/
def hexDigitCh (n : Nat) : Char :=
  if n < 10 then Char.ofNat (48 + n) else Char.ofNat (87 + n)

def invEscMsg : String := "Invalid \\escape"

def invCtrlMsg : String := "Invalid control character at"

/-! ## The scanner

A direct transcription of CPython's `json` scanner on `str` input with the
default decoder configuration, over `(remaining characters, absolute offset)`.
All whitespace skipping in the original (the `_w(s, end).end()` calls and
their single-character fast paths) amounts to skipping a run of the four
whitespace characters, which is `skipWs`. -/

/-- Skip JSON whitespace, advancing the absolute position. -/
def skipWs : List Char → Nat → List Char × Nat
  | [], p => ([], p)
  | c :: r, p => if isJsonWs c then skipWs r (p + 1) else (c :: r, p)

/-- The value of one hex digit, accepting both cases, as in the C scanner's
`\uXXXX` handling. -/
def hexVal (c : Char) : Option Nat :=
  if 48 ≤ c.toNat && c.toNat ≤ 57 then some (c.toNat - 48)
  else if 97 ≤ c.toNat && c.toNat ≤ 102 then some (c.toNat - 87)
  else if 65 ≤ c.toNat && c.toNat ≤ 70 then some (c.toNat - 55)
  else none

/-- The value of a four-hex-digit escape. -/
def hex4 (a b c d : Char) : Option Nat := do
  let x ← hexVal a
  let y ← hexVal b
  let z ← hexVal c
  let w ← hexVal d
  some (((x * 16 + y) * 16 + z) * 16 + w)

/-- The character for a scanned code point.  A lone surrogate, which Python
keeps as an unpaired code unit, is not a Unicode scalar value and is modelled
as U+FFFD. -/
def mkUChar (n : Nat) : Char :=
  if 0xd800 ≤ n && n ≤ 0xdfff then Char.ofNat 0xfffd else Char.ofNat n

/-- The single-character escapes of `py_scanstring`'s `BACKSLASH` table. -/
def escMap (c : Char) : Option Char :=
  if c == dquote then some dquote
  else if c == '\\' then some '\\'
  else if c == '/' then some '/'
  else if c == 'b' then some (Char.ofNat 8)
  else if c == 'f' then some (Char.ofNat 12)
  else if c == 'n' then some '\n'
  else if c == 'r' then some '\r'
  else if c == 't' then some '\t'
  else none

/-- `scanstring` in strict mode, with the error messages and offsets of the C
implementation `json.loads` installs by default: the input starts
just after the opening quote at absolute position `pos`; `bg` is the offset of
the opening quote, used by the `Unterminated string` error.  Returns the
decoded characters, the rest of the input, and the offset just after the
closing quote.  One unit of fuel is spent per consumed character, so
`length + 1` fuel can never run out. -/
def scanStringF : Nat → List Char → Nat → Nat →
    Except JsonError (List Char × List Char × Nat)
  | 0, _, _, bg => .error ⟨fuelMsg, bg⟩
  | _ + 1, [], _, bg => .error ⟨untermMsg, bg⟩
  | f + 1, c :: rest, pos, bg =>
    if c == dquote then .ok ([], rest, pos + 1)
    else if c == '\\' then
      match rest with
      | [] => .error ⟨untermMsg, bg⟩
      | e :: r2 =>
        if e == 'u' then
          match r2 with
          | h1 :: h2 :: h3 :: h4 :: r3 =>
            match hex4 h1 h2 h3 h4 with
            | none => .error ⟨badUniMsg, pos + 1⟩
            | some uni =>
              if 0xd800 ≤ uni && uni ≤ 0xdbff then
                match r3 with
                | b2 :: u2 :: r4 =>
                  if b2 == '\\' && u2 == 'u' then
                    match r4 with
                    | k1 :: k2 :: k3 :: k4 :: r5 =>
                      match hex4 k1 k2 k3 k4 with
                      | none => .error ⟨badUniMsg, pos + 7⟩
                      | some uni2 =>
                        if 0xdc00 ≤ uni2 && uni2 ≤ 0xdfff then
                          match scanStringF f r5 (pos + 12) bg with
                          | .error er => .error er
                          | .ok (tl, rr, pp) =>
                            .ok (Char.ofNat (0x10000 + (uni - 0xd800) * 1024 +
                                  (uni2 - 0xdc00)) :: tl, rr, pp)
                        else
                          match scanStringF f r3 (pos + 6) bg with
                          | .error er => .error er
                          | .ok (tl, rr, pp) => .ok (mkUChar uni :: tl, rr, pp)
                    | _ => .error ⟨badUniMsg, pos + 7⟩
                  else
                    match scanStringF f r3 (pos + 6) bg with
                    | .error er => .error er
                    | .ok (tl, rr, pp) => .ok (mkUChar uni :: tl, rr, pp)
                | _ =>
                  match scanStringF f r3 (pos + 6) bg with
                  | .error er => .error er
                  | .ok (tl, rr, pp) => .ok (mkUChar uni :: tl, rr, pp)
              else
                match scanStringF f r3 (pos + 6) bg with
                | .error er => .error er
                | .ok (tl, rr, pp) => .ok (Char.ofNat uni :: tl, rr, pp)
          | _ => .error ⟨badUniMsg, pos + 1⟩
        else
          match escMap e with
          | some ch =>
            match scanStringF f r2 (pos + 2) bg with
            | .error er => .error er
            | .ok (tl, rr, pp) => .ok (ch :: tl, rr, pp)
          | none => .error ⟨invEscMsg, pos⟩
    else if c.toNat < 0x20 then .error ⟨invCtrlMsg, pos⟩
    else
      match scanStringF f rest (pos + 1) bg with
      | .error er => .error er
      | .ok (tl, rr, pp) => .ok (c :: tl, rr, pp)

/-- ASCII decimal digit test, as in the scanner's `NUMBER_RE`. -/
def isDigitCh (c : Char) : Bool := 48 ≤ c.toNat && c.toNat ≤ 57

/-- The numeric value of a digit string, most significant first. -/
def digitsVal (ds : List Char) : Nat :=
  ds.foldl (fun a c => a * 10 + (c.toNat - 48)) 0

/-- The optional exponent group `([eE][-+]?\d+)?` of `NUMBER_RE`: if the sign
or the digits are missing the group fails and nothing is consumed. -/
def scanExpPart (after : List Char) (pos : Nat) :
    Option DecExp × List Char × Nat :=
  match after with
  | e :: r =>
    if e == 'e' || e == 'E' then
      match r with
      | s :: r2 =>
        if s == '+' || s == '-' then
          let ds := r2.takeWhile isDigitCh
          if ds.isEmpty then (none, after, pos)
          else (some ⟨e, some s, ds⟩, r2.drop ds.length, pos + 2 + ds.length)
        else
          let ds := r.takeWhile isDigitCh
          if ds.isEmpty then (none, after, pos)
          else (some ⟨e, none, ds⟩, r.drop ds.length, pos + 1 + ds.length)
      | [] => (none, after, pos)
    else (none, after, pos)
  | [] => (none, after, pos)

/-- The fraction and exponent groups of `NUMBER_RE` after the integer part,
and the resulting value: `parse_int` when both are absent, otherwise the exact
decimal literal. -/
def scanNumTail (neg : Bool) (ip : List Char) (after : List Char) (pos : Nat) :
    Option (Json × List Char × Nat) :=
  let ftriple : List Char × List Char × Nat :=
    match after with
    | d :: r2 =>
      if d == '.' then
        let ds := r2.takeWhile isDigitCh
        if ds.isEmpty then ([], after, pos)
        else (ds, r2.drop ds.length, pos + 1 + ds.length)
      else ([], after, pos)
    | [] => ([], after, pos)
  let fp := ftriple.1
  let after2 := ftriple.2.1
  let pos2 := ftriple.2.2
  let etriple := scanExpPart after2 pos2
  let ex := etriple.1
  if fp.isEmpty && ex.isNone then
    some (.num (if neg then -(digitsVal ip : Int) else (digitsVal ip : Int)),
          after2, pos2)
  else some (.dec neg ip fp ex, etriple.2.1, etriple.2.2)

/-- `NUMBER_RE.match(string, idx)` followed by the int/float split of
`_scan_once`: the integer part is `-?(0|[1-9]\d*)`, with no match when it is
absent. -/
def scanNumber (cs : List Char) (pos : Nat) : Option (Json × List Char × Nat) :=
  let npair : Bool × List Char :=
    match cs with
    | c :: r => if c == '-' then (true, r) else (false, cs)
    | [] => (false, cs)
  let neg := npair.1
  match npair.2 with
  | c :: r =>
    if c == '0' then scanNumTail neg ['0'] r (pos + (if neg then 2 else 1))
    else if isDigitCh c then
      let ds := r.takeWhile isDigitCh
      scanNumTail neg (c :: ds) (r.drop ds.length)
        (pos + (if neg then 2 else 1) + ds.length)
    else none
  | [] => none

mutual

/-- `_scan_once`: dispatch on the first character.  The `StopIteration(idx)`
raised by the original when nothing matches is reported by every caller as
`Expecting value` at that index, so the model returns that error directly. -/
def scanOnce : Nat → List Char → Nat → Except JsonError (Json × List Char × Nat)
  | 0, _, pos => .error ⟨fuelMsg, pos⟩
  | f + 1, cs, pos =>
    match cs with
    | [] => .error ⟨expValMsg, pos⟩
    | c :: rest =>
      if c == dquote then
        match scanStringF (rest.length + 1) rest (pos + 1) pos with
        | .error e => .error e
        | .ok (content, r2, p2) => .ok (.str ⟨content⟩, r2, p2)
      else if c == obrace then scanObjStart f rest (pos + 1)
      else if c == '[' then scanArrStart f rest (pos + 1)
      else if c == 'n' then
        match rest with
        | 'u' :: 'l' :: 'l' :: r => .ok (.null, r, pos + 4)
        | _ => .error ⟨expValMsg, pos⟩
      else if c == 't' then
        match rest with
        | 'r' :: 'u' :: 'e' :: r => .ok (.bool true, r, pos + 4)
        | _ => .error ⟨expValMsg, pos⟩
      else if c == 'f' then
        match rest with
        | 'a' :: 'l' :: 's' :: 'e' :: r => .ok (.bool false, r, pos + 5)
        | _ => .error ⟨expValMsg, pos⟩
      else
        match scanNumber cs pos with
        | some (v, r2, p2) => .ok (v, r2, p2)
        | none =>
          if c == 'N' then
            match rest with
            | 'a' :: 'N' :: r => .ok (.nan, r, pos + 3)
            | _ => .error ⟨expValMsg, pos⟩
          else if c == 'I' then
            match rest with
            | 'n' :: 'f' :: 'i' :: 'n' :: 'i' :: 't' :: 'y' :: r =>
              .ok (.inf false, r, pos + 8)
            | _ => .error ⟨expValMsg, pos⟩
          else if c == '-' then
            match rest with
            | 'I' :: 'n' :: 'f' :: 'i' :: 'n' :: 'i' :: 't' :: 'y' :: r =>
              .ok (.inf true, r, pos + 9)
            | _ => .error ⟨expValMsg, pos⟩
          else .error ⟨expValMsg, pos⟩
  termination_by structural f => f

/-- `JSONArray`: the input starts just after the `[`. -/
def scanArrStart : Nat → List Char → Nat → Except JsonError (Json × List Char × Nat)
  | 0, _, pos => .error ⟨fuelMsg, pos⟩
  | f + 1, cs, pos =>
    let sw := skipWs cs pos
    match sw.1 with
    | c :: r =>
      if c == ']' then .ok (.arr .nil, r, sw.2 + 1)
      else
        match scanArrElems f (c :: r) sw.2 with
        | .error e => .error e
        | .ok (vs, r2, p2) => .ok (.arr vs, r2, p2)
    | [] =>
      match scanArrElems f [] sw.2 with
      | .error e => .error e
      | .ok (vs, r2, p2) => .ok (.arr vs, r2, p2)
  termination_by structural f => f

/-- The element loop of `JSONArray`: scan a value, then either close on `]`,
continue past a `,`, or fail with `Expecting ',' delimiter` at the offending
offset. -/
def scanArrElems : Nat → List Char → Nat →
    Except JsonError (JsonList × List Char × Nat)
  | 0, _, pos => .error ⟨fuelMsg, pos⟩
  | f + 1, cs, pos =>
    match scanOnce f cs pos with
    | .error e => .error e
    | .ok (v, cs2, pos2) =>
      let sw := skipWs cs2 pos2
      match sw.1 with
      | c :: r =>
        if c == ']' then .ok (.cons v .nil, r, sw.2 + 1)
        else if c == ',' then
          let sw2 := skipWs r (sw.2 + 1)
          match scanArrElems f sw2.1 sw2.2 with
          | .error e => .error e
          | .ok (vs, r2, p2) => .ok (.cons v vs, r2, p2)
        else .error ⟨expCommaMsg, sw.2⟩
      | [] => .error ⟨expCommaMsg, sw.2⟩
  termination_by structural f => f

/-- `JSONObject` up to the first key: the input starts just after the `{`;
an immediate `}` yields the empty dict, a quote starts the member loop,
anything else is `Expecting property name enclosed in double quotes`. -/
def scanObjStart : Nat → List Char → Nat → Except JsonError (Json × List Char × Nat)
  | 0, _, pos => .error ⟨fuelMsg, pos⟩
  | f + 1, cs, pos =>
    let sw := skipWs cs pos
    match sw.1 with
    | c :: r =>
      if c == cbrace then .ok (.obj .fnil, r, sw.2 + 1)
      else if c == dquote then
        match scanObjElems f r (sw.2 + 1) with
        | .error e => .error e
        | .ok (ps, r2, p2) => .ok (.obj (dictOf ps), r2, p2)
      else .error ⟨expKeyMsg, sw.2⟩
    | [] => .error ⟨expKeyMsg, sw.2⟩
  termination_by structural f => f

/-- The member loop of `JSONObject`: the input starts just after the opening
quote of a key at absolute position `pos`, so the key's own `Unterminated
string` errors point at `pos - 1`. -/
def scanObjElems : Nat → List Char → Nat →
    Except JsonError (JsonFields × List Char × Nat)
  | 0, _, pos => .error ⟨fuelMsg, pos⟩
  | f + 1, cs, pos =>
    match scanStringF (cs.length + 1) cs pos (pos - 1) with
    | .error e => .error e
    | .ok (kcs, cs2, pos2) =>
      let sw := skipWs cs2 pos2
      match sw.1 with
      | c3 :: r3 =>
        if c3 != ':' then .error ⟨expColonMsg, sw.2⟩
        else
        let sw2 := skipWs r3 (sw.2 + 1)
        match scanOnce f sw2.1 sw2.2 with
        | .error e => .error e
        | .ok (v, cs5, pos5) =>
          let sw3 := skipWs cs5 pos5
          match sw3.1 with
          | c6 :: r6 =>
            if c6 == cbrace then .ok (.fcons ⟨kcs⟩ v .fnil, r6, sw3.2 + 1)
            else if c6 == ',' then
              let sw4 := skipWs r6 (sw3.2 + 1)
              match sw4.1 with
              | c7 :: r7 =>
                if c7 == dquote then
                  match scanObjElems f r7 (sw4.2 + 1) with
                  | .error e => .error e
                  | .ok (ps, r2, p2) => .ok (.fcons ⟨kcs⟩ v ps, r2, p2)
                else .error ⟨expKeyMsg, sw4.2⟩
              | [] => .error ⟨expKeyMsg, sw4.2⟩
            else .error ⟨expCommaMsg, sw3.2⟩
          | [] => .error ⟨expCommaMsg, sw3.2⟩
      | [] => .error ⟨expColonMsg, sw.2⟩
  termination_by structural f => f

end

/-- `JSONDecoder.decode`: skip leading whitespace, scan one value, skip
trailing whitespace, and reject leftover input as `Extra data`. -/
def loadsBody (cs : List Char) : Except JsonError Json :=
  let sw := skipWs cs 0
  match scanOnce (2 * cs.length + 2) sw.1 sw.2 with
  | .error e => .error e
  | .ok (v, rest, pos2) =>
    let sw2 := skipWs rest pos2
    match sw2.1 with
    | [] => .ok v
    | _ => .error ⟨extraMsg, sw2.2⟩

/-- `json.loads` on a `str`: the BOM rejection, then `decode`. -/
def loadsChars (cs : List Char) : Except JsonError Json :=
  match cs with
  | c :: _ =>
    if c == Char.ofNat 0xfeff then .error ⟨bomMsg, 0⟩ else loadsBody cs
  | [] => loadsBody cs

/-! ## Error rendering and the diagnostic fallback of `_safe_json` -/

/-- The line number `JSONDecodeError` computes: `doc.count('\n', 0, pos) + 1`. -/
def errLine (doc : List Char) (pos : Nat) : Nat :=
  (doc.take pos).count '\n' + 1

/-- The column `JSONDecodeError` computes: `pos - doc.rfind('\n', 0, pos)`,
which is one past the distance to the previous newline. -/
def errCol (doc : List Char) (pos : Nat) : Nat :=
  ((doc.take pos).reverse.takeWhile (fun c => c != '\n')).length + 1

/-- Python `str(e)` for a `JSONDecodeError` raised on document `doc`. -/
def errStr (doc : List Char) (e : JsonError) : String :=
  e.msg ++ ": line " ++ toString (errLine doc e.pos) ++ " column " ++
    toString (errCol doc e.pos) ++ " (char " ++ toString e.pos ++ ")"

def kRawOutput : String := "raw_output"
def kParseError : String := "parse_error"
def kErrorPosition : String := "error_position"

/-- The diagnostic mapping `_safe_json` returns when parsing and repair both
fail: `raw_output` is the de-fenced text, `parse_error` is `str(e)` for the
original strict-decode error, `error_position` is `e.pos` (which a
`JSONDecodeError` always carries, so the `hasattr` guard always takes the
numeric branch). -/
def diagObj (doc : List Char) (e : JsonError) : Json :=
  .obj (.fcons kRawOutput (.str ⟨doc⟩)
    (.fcons kParseError (.str (errStr doc e))
      (.fcons kErrorPosition (.num (e.pos : Int)) .fnil)))

/-- `_safe_json` on a character list: strip, de-fence, strict parse, one
repair attempt guarded by Python truthiness of the candidate, diagnostic
fallback. -/
def safeJsonChars (cs : List Char) : Json :=
  let text := defenceChars cs
  match loadsChars text with
  | .ok v => v
  | .error e =>
    match tryFixChars text with
    | some fixed =>
      if fixed.isEmpty then diagObj text e
      else
        match loadsChars fixed with
        | .ok v => v
        | .error _ => diagObj text e
    | none => diagObj text e

/-- `_safe_json` on a string. -/
def safeJson (s : String) : Json := safeJsonChars s.data

/-! ## Serialization: `json.dumps` with default arguments

`ensure_ascii=True`, item separator `", "`, key separator `": "`.  Integers
print as Python `repr`; exact decimal literals print as themselves, standing
in for float `repr`; the non-finite constants print as `NaN`/`Infinity`,
matching what `loads` accepts. -/

/-- The character of one decimal digit. -/
def digitCh (n : Nat) : Char := Char.ofNat (48 + n)

/-- Decimal digits of a natural number, most significant first; fuel-driven so
that it stays structurally recursive (one unit per digit, so `n + 1` is always
enough). -/
def natDigitsCore : Nat → Nat → List Char → List Char
  | 0, _, acc => acc
  | f + 1, n, acc =>
    if n < 10 then digitCh n :: acc
    else natDigitsCore f (n / 10) (digitCh (n % 10) :: acc)

/-- Decimal digits of a natural number, most significant first. -/
def natDigits (n : Nat) : List Char := natDigitsCore (n + 1) n []

/-- Python `repr` of an `int`. -/
def intRepr (n : Int) : List Char :=
  if n < 0 then '-' :: natDigits n.natAbs else natDigits n.natAbs

/-- Four lowercase hex digits, as produced by the encoder's `\uXXXX` escapes. -/
def hex4Chars (n : Nat) : List Char :=
  [hexDigitCh (n / 4096 % 16), hexDigitCh (n / 256 % 16),
   hexDigitCh (n / 16 % 16), hexDigitCh (n % 16)]

/-- The encoder's escaping of one character under `ensure_ascii=True`: the
short escapes for `"`/`\`/control shorthands, `\uXXXX` (with a surrogate pair
above U+FFFF) for everything outside printable ASCII, the character itself
otherwise. -/
def encChar (c : Char) : List Char :=
  if c == dquote then ['\\', dquote]
  else if c == '\\' then ['\\', '\\']
  else if c == '\n' then ['\\', 'n']
  else if c == '\r' then ['\\', 'r']
  else if c == '\t' then ['\\', 't']
  else if c.toNat == 8 then ['\\', 'b']
  else if c.toNat == 12 then ['\\', 'f']
  else if c.toNat < 0x20 || 0x7e < c.toNat then
    if c.toNat < 0x10000 then '\\' :: 'u' :: hex4Chars c.toNat
    else
      '\\' :: 'u' :: hex4Chars (0xd800 + (c.toNat - 0x10000) / 1024) ++
        ('\\' :: 'u' :: hex4Chars (0xdc00 + (c.toNat - 0x10000) % 1024))
  else [c]

/-- The escaped body of a string under the encoder. -/
def encBody : List Char → List Char
  | [] => []
  | c :: t => encChar c ++ encBody t

/-- The encoder's quoted form of a string. -/
def encStrChars (s : String) : List Char :=
  dquote :: (encBody s.data ++ [dquote])

/-- The printed exponent part of an exact decimal literal. -/
def expPartChars : Option DecExp → List Char
  | none => []
  | some e =>
    e.eChar :: ((match e.sgn with | some s => [s] | none => []) ++ e.digs)

mutual

/-- `json.dumps` of one value, as a character list. -/
def dumpsVal : Json → List Char
  | .null => ['n', 'u', 'l', 'l']
  | .bool true => 't' :: ['r', 'u', 'e']
  | .bool false => 'f' :: ['a', 'l', 's', 'e']
  | .num n => intRepr n
  | .dec neg ip fp ex =>
    (if neg then ['-'] else []) ++ ip ++
      (if fp.isEmpty then [] else '.' :: fp) ++ expPartChars ex
  | .nan => ['N', 'a', 'N']
  | .inf false => ['I', 'n', 'f', 'i', 'n', 'i', 't', 'y']
  | .inf true => ['-', 'I', 'n', 'f', 'i', 'n', 'i', 't', 'y']
  | .str s => encStrChars s
  | .arr .nil => ['[', ']']
  | .arr (.cons v t) => '[' :: (dumpsVal v ++ dumpsItems t ++ [']'])
  | .obj .fnil => [obrace, cbrace]
  | .obj (.fcons k v t) =>
    obrace :: (encStrChars k ++ ':' :: ' ' :: dumpsVal v ++
      dumpsFields t ++ [cbrace])

/-- The `", "`-separated tail items of a sequence. -/
def dumpsItems : JsonList → List Char
  | .nil => []
  | .cons v t => ',' :: ' ' :: (dumpsVal v ++ dumpsItems t)

/-- The `", "`-separated tail members of a mapping. -/
def dumpsFields : JsonFields → List Char
  | .fnil => []
  | .fcons k v t =>
    ',' :: ' ' :: (encStrChars k ++ ':' :: ' ' :: dumpsVal v ++ dumpsFields t)

end

/-- `json.dumps` of one value, as a string. -/
def dumpsStr (v : Json) : String := ⟨dumpsVal v⟩

deriving instance DecidableEq for Json

/-! ## Specification-side definitions

The following definitions are written from the words of the specification and
of the claims, to be compared with the source-derived definitions above; they
appear only in the statements of the claim theorems. -/

/-- The repair candidate exactly as claim C2 describes it, applied to a text
`t`: run the character scan; if it ends inside a string and a clean boundary
was recorded, truncate at the last boundary; re-count the four delimiters on
the possibly-truncated text; strip trailing commas; append the missing
close-sequence characters and then the missing close-mapping characters. -/
def specFixCandidate (t : List Char) : List Char :=
  let st := fixScan t
  let t2 := if st.insideStr && st.lastClean > 0 then t.take st.lastClean else t
  rstripComma t2 ++ List.replicate (t2.count '[' - t2.count ']') ']' ++
    List.replicate (t2.count obrace - t2.count cbrace) cbrace

/-- String-tracking state for the specification-side notion of an occurrence
"outside a quoted string literal" used by claim C10. -/
structure StrState where
  insideStr : Bool
  escNext : Bool
deriving DecidableEq

/-- One step of the specification-side string tracking. -/
def strStep (st : StrState) (c : Char) : StrState :=
  if st.escNext then { st with escNext := false }
  else if c == '\\' then { st with escNext := true }
  else if c == dquote then { insideStr := !st.insideStr, escNext := false }
  else st

/-- How many occurrences of `target` appear outside quoted string literals,
tracking in-string state with backslash escapes. -/
def outsideCount (t : List Char) (target : Char) : Nat :=
  (t.foldl
    (fun (p : StrState × Nat) c =>
      (strStep p.1 c,
       if !p.1.insideStr && !p.1.escNext && c == target then p.2 + 1 else p.2))
    (⟨false, false⟩, 0)).2

/-- A fence-wrapped payload as described by claims C5 and C9: a fence marker
line, the content lines, a closing fence marker line, then the trailing
commentary (possibly empty). -/
def wrapFence (c com : List Char) : List Char :=
  ticks3 ++ '\n' :: (c ++ '\n' :: (ticks3 ++ '\n' :: com))

/-- The repair attempt fails in the sense of claim C4: whatever candidate it
yields is empty (falsy in Python) or fails to decode. -/
def repairFails (d : List Char) : Prop :=
  ∀ fixed, tryFixChars d = some fixed →
    fixed = [] ∨ ∃ e2, loadsChars fixed = .error e2

/-- The decoder succeeds on input `cs` with value `v`, through the strict
parse or through the single repair attempt (claim C7's "input the decoder
successfully decodes"). -/
def decodeSuccess (cs : List Char) (v : Json) : Prop :=
  loadsChars (defenceChars cs) = .ok v ∨
  ∃ e fixed, loadsChars (defenceChars cs) = .error e ∧
    tryFixChars (defenceChars cs) = some fixed ∧ fixed ≠ [] ∧
    loadsChars fixed = .ok v

/-! ## Well-formedness of scanner output

The invariants every value produced by the scanner satisfies; they are what
the round-trip argument for claim C7 needs.  `ipOk` is the shape of the
integer-part group `(-?(?:0|[1-9]\d*))` of `NUMBER_RE`. -/

/-- The integer-part digits of a decimal literal: `0`, or a nonzero digit
followed by digits. -/
def ipOk : List Char → Bool
  | [] => false
  | c :: r => (c == '0' && r.isEmpty) ||
      ((49 ≤ c.toNat && c.toNat ≤ 57) && r.all isDigitCh)

/-- Shape of a scanned exponent group. -/
def exOk : Option DecExp → Bool
  | none => true
  | some e =>
    (e.eChar == 'e' || e.eChar == 'E') &&
    (match e.sgn with
     | none => true
     | some s => s == '+' || s == '-') &&
    !e.digs.isEmpty && e.digs.all isDigitCh

/-- Keys of a field list are pairwise distinct. -/
def uniqF : JsonFields → Bool
  | .fnil => true
  | .fcons k _ t => !hasKeyF t k && uniqF t

mutual

/-- Scanner-output invariant for one value. -/
def wfVal : Json → Bool
  | .null => true
  | .bool _ => true
  | .num _ => true
  | .dec _ ip fp ex =>
    ipOk ip && fp.all isDigitCh && exOk ex && (!fp.isEmpty || !ex.isNone)
  | .nan => true
  | .inf _ => true
  | .str _ => true
  | .arr l => wfList l
  | .obj fs => uniqF fs && wfFields fs

/-- Scanner-output invariant for a sequence. -/
def wfList : JsonList → Bool
  | .nil => true
  | .cons v t => wfVal v && wfList t

/-- Scanner-output invariant for the values of a field list. -/
def wfFields : JsonFields → Bool
  | .fnil => true
  | .fcons _ v t => wfVal v && wfFields t

end

/-! ## Fuel bounds for the round-trip argument -/

mutual

/-- Enough fuel for `scanOnce` to scan the printed form of `v`. -/
def fuelVal : Json → Nat
  | .arr l => 2 + fuelL l
  | .obj fs => 2 + fuelF fs
  | _ => 1

/-- Enough fuel for the element loop over the printed elements. -/
def fuelL : JsonList → Nat
  | .nil => 0
  | .cons v t => 1 + fuelVal v + fuelL t

/-- Enough fuel for the member loop over the printed members. -/
def fuelF : JsonFields → Nat
  | .fnil => 0
  | .fcons _ v t => 1 + fuelVal v + fuelF t

end

/-- The characters that may follow a printed number without extending the
`NUMBER_RE` match. -/
def notNumExt : List Char → Bool
  | [] => true
  | c :: _ => !isDigitCh c && c != '.' && c != 'e' && c != 'E'

/-- The context condition under which the printed form of `v` re-scans as
exactly `v`: only numbers constrain what may follow. -/
def notValExt (v : Json) (rest : List Char) : Bool :=
  match v with
  | .num _ => notNumExt rest
  | .dec _ _ _ _ => notNumExt rest
  | _ => true

/-! ## Concrete inputs used by the claims -/

/-- Claim C1's truncation-scenario input. -/
def c1input : String := "\x7b\"a\": [1, 2, 3], \"b\": \"incomplete"

/-- Claim C3's balanced-but-malformed input. -/
def c3input : String := "\x7b\"a\": 1, \x7dextra\x7d"

/-- Claim C5's counterexample content: a content line strips to a closing
fence marker, so wrapping changes what the decoder sees. -/
def c5content : String := "5\n```\n6"

/-- Claim C6's counterexample input: valid, unfenced, and it contains the
`raw_output` key itself. -/
def c6input : String := "\x7b\"raw_output\": 0\x7d"

/-- Claim C2's counterexample input: repair runs on it, but the candidate is
built from the whitespace-stripped text, not from the text itself. -/
def c2ws : String := " [1"

/-- Claim C10's input: delimiters balanced outside strings, an extra
open-brace inside a string literal. -/
def c10input : String := "[\"\x7b\"]"

/-- Claim C9's witness input: an opening fence with no closing fence line. -/
def c9input : String := "```json\n\x7b\"k\": true\x7d\nnoise"

/-- Claim C8's input: a lone unmatched open-brace. -/
def c8input : String := "\x7b"

/-- Witness input for the amended claim C6. -/
def c6wit : String := "[true]"

/-- Witness input for claim C7's round trip. -/
def c7wit : String := "[1, \"a\"]"

/-- Witness content for the amended claim C5. -/
def c5wit : String := "\x7b\"n\": [2]\x7d"

/-- Witness commentary for the amended claim C5. -/
def c5noise : String := "Hope this helps!"

/-- The key `"a"` of claim C1's expected result. -/
def keyA : String := "a"

/-- The key `"b"` that claim C1 requires to be absent. -/
def keyB : String := "b"

/-- The key of claim C5's witness payload. -/
def keyN : String := "n"

/-! ## Helper lemmas about the text utilities -/

theorem count_dropWhile_of_not (p : Char → Bool) (c : Char) (h : p c = false) :
    ∀ xs : List Char, (xs.dropWhile p).count c = xs.count c := by
  intro xs
  induction xs with
  | nil => rfl
  | cons x t ih =>
    by_cases hx : p x
    · have hxc : c ≠ x := by
        intro hce
        rw [← hce, h] at hx
        exact Bool.false_ne_true hx
      rw [List.dropWhile_cons, if_pos hx, ih]
      simp [List.count_cons, hxc]
    · rw [List.dropWhile_cons, if_neg hx]

theorem count_pyStrip (c : Char) (h : isPySpace c = false) (xs : List Char) :
    (pyStripChars xs).count c = xs.count c := by
  unfold pyStripChars
  rw [List.count_reverse, count_dropWhile_of_not _ _ h, List.count_reverse,
    count_dropWhile_of_not _ _ h]

/-! ## Helper lemmas about the decoder's control flow -/

theorem defence_no_ticks (cs : List Char)
    (h : startsWithTicks (pyStripChars cs) = false) :
    defenceChars cs = pyStripChars cs := by
  simp [defenceChars, h]

theorem safeJson_of_ok (cs : List Char) (v : Json)
    (h : loadsChars (defenceChars cs) = .ok v) : safeJsonChars cs = v := by
  simp [safeJsonChars, h]

theorem safeJson_diag (cs : List Char) (e : JsonError)
    (h : loadsChars (defenceChars cs) = .error e)
    (hr : repairFails (defenceChars cs)) :
    safeJsonChars cs = diagObj (defenceChars cs) e := by
  simp only [safeJsonChars, h]
  cases htf : tryFixChars (defenceChars cs) with
  | none => rfl
  | some fixed =>
    rcases hr fixed htf with h0 | ⟨e2, he2⟩
    · simp [h0]
    · by_cases hemp : fixed.isEmpty
      · simp [hemp]
      · simp [hemp, he2]

theorem tryFix_balanced (t : List Char)
    (hb : ¬ t.count obrace > t.count cbrace)
    (hk : ¬ t.count '[' > t.count ']') :
    tryFixChars t = none := by
  unfold tryFixChars
  by_cases he : t.isEmpty
  · simp [he]
  · have h1 : (pyStripChars t).count obrace = t.count obrace :=
      count_pyStrip _ (by decide) t
    have h2 : (pyStripChars t).count cbrace = t.count cbrace :=
      count_pyStrip _ (by decide) t
    have h3 : (pyStripChars t).count '[' = t.count '[' :=
      count_pyStrip _ (by decide) t
    have h4 : (pyStripChars t).count ']' = t.count ']' :=
      count_pyStrip _ (by decide) t
    simp only [he, if_false, Bool.false_eq_true, h1, h2, h3, h4]
    rw [if_neg]
    simp only [Bool.or_eq_true, decide_eq_true_eq]
    push_neg
    exact ⟨Nat.le_of_not_lt hb, Nat.le_of_not_lt hk⟩

/-! ## Claim theorems -/

/-- Claim C3: for every de-fenced string that fails strict decoding with
balanced-or-over-closed delimiter families, the repair routine gives up
(`None`) and the decoder returns the diagnostic mapping built from the
original error. -/
theorem claim3_balanced_no_repair (t : List Char) (e : JsonError)
    (hl : loadsChars (defenceChars t) = .error e)
    (hb : ¬ (defenceChars t).count obrace > (defenceChars t).count cbrace)
    (hk : ¬ (defenceChars t).count '[' > (defenceChars t).count ']') :
    tryFixChars (defenceChars t) = none ∧
    safeJsonChars t = diagObj (defenceChars t) e := by
  have hn := tryFix_balanced _ hb hk
  refine ⟨hn, safeJson_diag _ _ hl ?_⟩
  intro fixed hf
  rw [hn] at hf
  cases hf

/-- Witness for claim C3 at its balanced-but-malformed scenario input
`{"a": 1, }extra}`: strict decoding fails at offset 9, no repair is attempted,
and the result carries the raw text and a non-empty parse error. -/
theorem claim3_witness :
    loadsChars (defenceChars c3input.data) = .error ⟨expKeyMsg, 9⟩ ∧
    safeJsonChars c3input.data = diagObj c3input.data ⟨expKeyMsg, 9⟩ ∧
    errStr c3input.data ⟨expKeyMsg, 9⟩ ≠ "" := by
  have hd : defenceChars c3input.data = c3input.data := by rfl
  have hl : loadsChars (defenceChars c3input.data) = .error ⟨expKeyMsg, 9⟩ := by
    rw [hd]; rfl
  have h := claim3_balanced_no_repair c3input.data ⟨expKeyMsg, 9⟩ hl
    (by rw [hd]; decide) (by rw [hd]; decide)
  refine ⟨hl, ?_, by decide⟩
  rw [h.2, hd]

/-- Claim C4: the decoder is total by construction, and whenever the strict
parse fails and the single repair attempt fails (no candidate, a falsy empty
candidate, or a candidate that still fails to decode), the result is the
diagnostic mapping: `raw_output` is the de-fenced text, `parse_error` is the
rendered original error, `error_position` is its numeric offset. -/
theorem claim4_diagnostic_fallback (t : List Char) (e : JsonError)
    (hl : loadsChars (defenceChars t) = .error e)
    (hr : repairFails (defenceChars t)) :
    safeJsonChars t =
      Json.obj (.fcons kRawOutput (.str ⟨defenceChars t⟩)
        (.fcons kParseError (.str (errStr (defenceChars t) e))
          (.fcons kErrorPosition (.num (e.pos : Int)) .fnil))) :=
  safeJson_diag t e hl hr

/-- Witness for claim C4 at the empty-input scenario: the empty string decodes
to the diagnostic mapping with the rendered `Expecting value` error. -/
theorem claim4_witness :
    safeJsonChars [] =
      Json.obj (.fcons kRawOutput (.str ⟨[]⟩)
        (.fcons kParseError (.str (errStr [] ⟨expValMsg, 0⟩))
          (.fcons kErrorPosition (.num 0) .fnil))) ∧
    errStr [] ⟨expValMsg, 0⟩ = "Expecting value: line 1 column 1 (char 0)" := by
  have h := claim4_diagnostic_fallback [] ⟨expValMsg, 0⟩ (by rfl)
    (by intro fixed hf; cases hf)
  exact ⟨by simpa using h, by rfl⟩

set_option maxHeartbeats 4000000 in
/-- Claim C1: on the truncation-scenario input `{"a": [1, 2, 3], "b": "incomplete`
the decoder returns the mapping sending `a` to the sequence `[1,2,3]`, with no
`b` key and no diagnostic keys. -/
theorem claim1_truncation :
    safeJson c1input =
      Json.obj (.fcons keyA (.arr (toJL [Json.num 1, Json.num 2, Json.num 3]))
        .fnil) ∧
    hasKey (safeJson c1input) keyB = false ∧
    hasKey (safeJson c1input) kRawOutput = false ∧
    hasKey (safeJson c1input) kParseError = false := by
  have h : safeJson c1input =
      Json.obj (.fcons keyA (.arr (toJL [Json.num 1, Json.num 2, Json.num 3]))
        .fnil) := by rfl
  refine ⟨h, ?_, ?_, ?_⟩ <;> rw [h] <;> rfl

/-- Claim C8: on the one-character input `{` the repair appends a single
close-brace, the candidate `{}` decodes, and the decoder returns the empty
mapping with no diagnostic keys. -/
theorem claim8_lone_brace :
    tryFixChars c8input.data = some [obrace, cbrace] ∧
    loadsChars [obrace, cbrace] = .ok (Json.obj .fnil) ∧
    safeJson c8input = Json.obj .fnil ∧
    hasKey (safeJson c8input) kRawOutput = false ∧
    hasKey (safeJson c8input) kParseError = false :=
  ⟨by rfl, by rfl, by rfl, by rfl, by rfl⟩

/-- Claim C10: on `["{"]` the four delimiters are balanced outside string
literals, yet the unbalance test counts the open-brace inside the string and
the repair appends a close-brace for it. -/
theorem claim10_instring_counting :
    outsideCount c10input.data obrace = outsideCount c10input.data cbrace ∧
    outsideCount c10input.data '[' = outsideCount c10input.data ']' ∧
    c10input.data.count obrace > c10input.data.count cbrace ∧
    tryFixChars c10input.data = some (c10input.data ++ [cbrace]) :=
  ⟨by rfl, by rfl, by decide, by rfl⟩

/-- Counterexample to claim C6 as stated: `{"raw_output": 0}` is valid
unfenced input, the decoder returns its decoded value, and that value does
contain the diagnostic key `raw_output`. -/
theorem claim6_cex :
    startsWithTicks (pyStripChars c6input.data) = false ∧
    loadsChars (pyStripChars c6input.data) =
      .ok (Json.obj (.fcons kRawOutput (.num 0) .fnil)) ∧
    safeJson c6input = Json.obj (.fcons kRawOutput (.num 0) .fnil) ∧
    hasKey (safeJson c6input) kRawOutput = true := by
  have hok : loadsChars (pyStripChars c6input.data) =
      .ok (Json.obj (.fcons kRawOutput (.num 0) .fnil)) := by rfl
  have hs : safeJsonChars c6input.data =
      Json.obj (.fcons kRawOutput (.num 0) .fnil) :=
    safeJson_of_ok _ _ (by rw [defence_no_ticks _ (by rfl)]; exact hok)
  exact ⟨by rfl, hok, hs, by rw [show safeJson c6input = _ from hs]; rfl⟩

/-- Claim C6 as amended: for valid structured text with no fence the decoder
returns exactly the decoded value (so diagnostic keys appear only when the
input itself contains them). -/
theorem claim6_strict_decode (s : String) (v : Json)
    (hf : startsWithTicks (pyStripChars s.data) = false)
    (hok : loadsChars (pyStripChars s.data) = .ok v) :
    safeJson s = v :=
  safeJson_of_ok _ _ (by rw [defence_no_ticks _ hf]; exact hok)

/-- Witness for the amended claim C6 at `[true]`: the decoded value comes back
as is and has no diagnostic keys. -/
theorem claim6_witness :
    safeJson c6wit = Json.arr (toJL [Json.bool true]) ∧
    hasKey (safeJson c6wit) kRawOutput = false := by
  have h := claim6_strict_decode c6wit (Json.arr (toJL [Json.bool true]))
    (by rfl) (by rfl)
  exact ⟨h, by rw [h]; rfl⟩

/-- Counterexample to claim C2 as stated: on the de-fenced text ` [1`
(reachable through a fence whose content line is indented) repair is
attempted, but the candidate is built from the whitespace-stripped text, so it
differs from the claim's construction applied to the de-fenced text itself. -/
theorem claim2_cex :
    tryFixChars c2ws.data ≠ none ∧
    tryFixChars c2ws.data ≠ some (specFixCandidate c2ws.data) :=
  ⟨by decide, by decide⟩

/-- Claim C2 as amended: on every string on which repair is attempted the
candidate is exactly the claim's scan/truncate/re-count/strip/append pipeline
applied to the whitespace-stripped text. -/
theorem claim2_repair_pipeline (t : List Char) (hne : t ≠ [])
    (hunb : (pyStripChars t).count obrace > (pyStripChars t).count cbrace ∨
            (pyStripChars t).count '[' > (pyStripChars t).count ']') :
    tryFixChars t = some (specFixCandidate (pyStripChars t)) := by
  have hne' : t.isEmpty = false := by
    cases t
    · exact absurd rfl hne
    · rfl
  rcases hunb with h | h <;> simp [tryFixChars, specFixCandidate, hne', h]

/-- Witness for the amended claim C2 at the truncation-scenario input. -/
theorem claim2_witness :
    tryFixChars c1input.data = some (specFixCandidate (pyStripChars c1input.data)) :=
  claim2_repair_pipeline _ (by decide) (Or.inl (by decide))

/-! ## Helper lemmas about line splitting, joining and the fence loop -/

theorem splitNL_ne_nil (cs : List Char) : splitNL cs ≠ [] := by
  induction cs with
  | nil => simp [splitNL]
  | cons c t ih =>
    by_cases hc : c = '\n'
    · simp [splitNL, hc]
    · simp only [splitNL, hc, if_false]
      cases hs : splitNL t
      · exact absurd hs ih
      · simp

theorem splitNL_cons_ne (c : Char) (h : ¬ c = '\n') (cs : List Char) :
    ∃ l0 ls, splitNL cs = l0 :: ls ∧ splitNL (c :: cs) = (c :: l0) :: ls := by
  cases hs : splitNL cs with
  | nil => exact absurd hs (splitNL_ne_nil cs)
  | cons l0 ls => exact ⟨l0, ls, rfl, by simp [splitNL, h, hs]⟩

theorem splitNL_append_nl (xs ys : List Char) :
    splitNL (xs ++ '\n' :: ys) = splitNL xs ++ splitNL ys := by
  induction xs with
  | nil => simp [splitNL]
  | cons x t ih =>
    by_cases hx : x = '\n'
    · subst hx
      simp [splitNL, ih]
    · obtain ⟨l0, ls, hs, hc⟩ := splitNL_cons_ne x hx (t ++ '\n' :: ys)
      obtain ⟨l0', ls', hs', hc'⟩ := splitNL_cons_ne x hx t
      rw [List.cons_append, hc, hc']
      rw [ih, hs'] at hs
      rw [List.cons_append] at hs
      cases hs
      simp

theorem joinNL_cons_cons (c : Char) (l0 : List Char) (ls : List (List Char)) :
    joinNL ((c :: l0) :: ls) = c :: joinNL (l0 :: ls) := by
  cases ls <;> rfl

theorem joinNL_splitNL (cs : List Char) : joinNL (splitNL cs) = cs := by
  induction cs with
  | nil => rfl
  | cons c t ih =>
    by_cases hc : c = '\n'
    · subst hc
      simp only [splitNL, if_pos rfl]
      cases hs : splitNL t with
      | nil => exact absurd hs (splitNL_ne_nil t)
      | cons l0 ls =>
        rw [hs] at ih
        show joinNL ([] :: l0 :: ls) = '\n' :: t
        rw [show joinNL ([] :: l0 :: ls) = [] ++ '\n' :: joinNL (l0 :: ls) from rfl]
        rw [ih]
        rfl
    · obtain ⟨l0, ls, hs, hc2⟩ := splitNL_cons_ne c hc t
      rw [hc2, joinNL_cons_cons, ← hs, ih]

theorem rstripWs_cons_of_ne (x : Char) (l : List Char)
    (h : isPySpace x = false ∨ rstripWs l ≠ []) :
    rstripWs (x :: l) = x :: rstripWs l := by
  unfold rstripWs
  rw [List.reverse_cons, List.dropWhile_append]
  by_cases hd : (l.reverse.dropWhile isPySpace).isEmpty
  · have hx : isPySpace x = false := by
      rcases h with h | h
      · exact h
      · exfalso
        apply h
        unfold rstripWs
        rw [List.isEmpty_iff.mp hd]
        rfl
    rw [if_pos hd, List.isEmpty_iff.mp hd]
    show (List.dropWhile isPySpace [x]).reverse = [x]
    rw [List.dropWhile_cons, if_neg (by simp [hx])]
    rfl
  · rw [if_neg hd]
    rw [List.reverse_append]
    rfl

theorem rstripWs_cons_ws_nil (x : Char) (l : List Char)
    (hx : isPySpace x = true) (hl : rstripWs l = []) :
    rstripWs (x :: l) = [] := by
  have hd : l.reverse.dropWhile isPySpace = [] := by
    have := congrArg List.reverse hl
    simpa [rstripWs] using this
  unfold rstripWs
  rw [List.reverse_cons, List.dropWhile_append, hd]
  simp [List.dropWhile, hx]

theorem rstripWs_append_right (a X : List Char) (hX : rstripWs X ≠ []) :
    rstripWs (a ++ X) = a ++ rstripWs X := by
  induction a with
  | nil => rfl
  | cons x t ih =>
    have ht : rstripWs (t ++ X) ≠ [] := by
      rw [ih]
      intro hh
      exact hX (List.append_eq_nil.mp hh).2
    rw [List.cons_append, rstripWs_cons_of_ne x _ (Or.inr ht), ih]
    rfl

theorem pyStrip_head (x : Char) (l : List Char) (h : isPySpace x = false) :
    pyStripChars (x :: l) = x :: rstripWs l := by
  show ((List.dropWhile isPySpace (x :: l)).reverse.dropWhile isPySpace).reverse
      = x :: rstripWs l
  rw [List.dropWhile_cons, if_neg (by simp [h])]
  exact rstripWs_cons_of_ne x l (Or.inl h)

theorem btick_not_ws : isPySpace btick = false := by decide

theorem startsWithTicks_elim (l : List Char) (h : startsWithTicks l = true) :
    ∃ r, l = btick :: btick :: btick :: r := by
  match l, h with
  | a :: b :: c :: r, h =>
    simp only [startsWithTicks, Bool.and_eq_true, beq_iff_eq] at h
    exact ⟨r, by rw [h.1.1, h.1.2, h.2]⟩

theorem pyStrip_ticks (l : List Char) (h : startsWithTicks l = true) :
    startsWithTicks (pyStripChars l) = true := by
  obtain ⟨r, hr⟩ := startsWithTicks_elim l h
  subst hr
  rw [pyStrip_head _ _ btick_not_ws,
    rstripWs_cons_of_ne _ _ (Or.inl btick_not_ws),
    rstripWs_cons_of_ne _ _ (Or.inl btick_not_ws)]
  rfl

theorem fenceLoop_append (ls1 ls2 : List (List Char))
    (h : ∀ l ∈ ls1, pyStripChars l ≠ ticks3) :
    fenceLoop (ls1 ++ ls2) true = ls1 ++ fenceLoop ls2 true := by
  induction ls1 with
  | nil => rfl
  | cons l t ih =>
    have hl : pyStripChars l ≠ ticks3 := h l (List.mem_cons_self l t)
    rw [List.cons_append]
    show (if startsWithTicks (pyStripChars l) && !true then
        fenceLoop (t ++ ls2) true
      else if pyStripChars l = ticks3 then []
      else if true then l :: fenceLoop (t ++ ls2) true
      else fenceLoop (t ++ ls2) true) = l :: t ++ fenceLoop ls2 true
    rw [Bool.not_true, Bool.and_false, if_neg (by simp), if_neg hl, if_pos rfl,
      ih (fun x hx => h x (List.mem_cons_of_mem l hx))]
    rfl

theorem splitNL_head_ticks (t : List Char) (h : startsWithTicks t = true) :
    ∃ l0 ls, splitNL t = l0 :: ls ∧ startsWithTicks l0 = true := by
  obtain ⟨r, hr⟩ := startsWithTicks_elim t h
  subst hr
  have hn : ¬ btick = '\n' := by decide
  obtain ⟨z0, zs, hz, hcz⟩ := splitNL_cons_ne btick hn r
  obtain ⟨y0, ys, hy, hcy⟩ := splitNL_cons_ne btick hn (btick :: r)
  obtain ⟨x0, xs, hx, hcx⟩ := splitNL_cons_ne btick hn (btick :: btick :: r)
  rw [hcz] at hy
  cases hy
  rw [hcy] at hx
  cases hx
  exact ⟨btick :: btick :: btick :: z0, zs, hcx, rfl⟩

/-- Claim C9: when the trimmed input opens a fence and no later line strips to
a bare closing fence, the de-fenced payload is exactly the join of every line
after the opening marker line. -/
theorem claim9_unclosed_fence (s : List Char)
    (h1 : startsWithTicks (pyStripChars s) = true)
    (h2 : ∀ l ∈ (splitNL (pyStripChars s)).tail, pyStripChars l ≠ ticks3) :
    defenceChars s = joinNL ((splitNL (pyStripChars s)).tail) := by
  unfold defenceChars
  rw [if_pos h1]
  obtain ⟨l0, ls, hs, hl0⟩ := splitNL_head_ticks _ h1
  have hst : startsWithTicks (pyStripChars l0) = true := pyStrip_ticks _ hl0
  rw [hs] at h2 ⊢
  have hfl : fenceLoop (l0 :: ls) false = fenceLoop ls true := by
    simp [fenceLoop, hst]
  rw [hfl]
  have hall : fenceLoop ls true = ls := by
    have := fenceLoop_append ls [] (by simpa using h2)
    simpa [fenceLoop] using this
  rw [hall]
  rfl

/-- Witness for claim C9: an opening ```` ```json ```` line with no closing
fence keeps both following lines verbatim. -/
theorem claim9_witness :
    defenceChars c9input.data = joinNL ((splitNL (pyStripChars c9input.data)).tail) ∧
    joinNL ((splitNL (pyStripChars c9input.data)).tail) =
      (String.mk [obrace] ++ "\"k\": true" ++ String.mk [cbrace] ++ "\nnoise").data := by
  refine ⟨claim9_unclosed_fence _ (by rfl) ?_, by rfl⟩
  decide

/-! ## Helper lemmas for claim C5 -/

theorem safeJson_congr (a b : List Char) (h : defenceChars a = defenceChars b) :
    safeJsonChars a = safeJsonChars b := by
  simp only [safeJsonChars, h]

theorem fenceLoop_break (ls : List (List Char)) :
    fenceLoop (ticks3 :: ls) true = [] := rfl

theorem fenceLoop_open (ls : List (List Char)) :
    fenceLoop (ticks3 :: ls) false = fenceLoop ls true := rfl

theorem rstripWs_ticksX (com : List Char) :
    rstripWs (ticks3 ++ '\n' :: com) = ticks3 ++ rstripWs ('\n' :: com) := by
  show rstripWs (btick :: btick :: btick :: '\n' :: com) = _
  rw [rstripWs_cons_of_ne _ _ (Or.inl btick_not_ws),
    rstripWs_cons_of_ne _ _ (Or.inl btick_not_ws),
    rstripWs_cons_of_ne _ _ (Or.inl btick_not_ws)]
  rfl

/-- Counterexample to claim C5 as stated: with the content `5\n```\n6`, whose
middle line strips to a closing fence marker, decoding the fence-wrapped input
differs from decoding the content alone. -/
theorem claim5_cex :
    safeJsonChars (wrapFence c5content.data []) ≠ safeJsonChars c5content.data := by
  decide

/-- Claim C5 as amended: for content that is already stripped, does not itself
open a fence, and has no line stripping to a bare closing fence marker,
decoding the fence-wrapped content (with any trailing commentary) equals
decoding the content alone — in particular the commentary never influences the
result. -/
theorem claim5_fence_transparent (c com : List Char)
    (h0 : pyStripChars c = c)
    (h1 : startsWithTicks c = false)
    (h2 : ∀ l ∈ splitNL c, pyStripChars l ≠ ticks3) :
    safeJsonChars (wrapFence c com) = safeJsonChars c := by
  have hRcases : rstripWs ('\n' :: com) = [] ∨
      rstripWs ('\n' :: com) = '\n' :: rstripWs com := by
    by_cases hwc : rstripWs com = []
    · exact Or.inl (rstripWs_cons_ws_nil _ _ (by decide) hwc)
    · exact Or.inr (rstripWs_cons_of_ne _ _ (Or.inr hwc))
  have hsW : ∃ ls', splitNL (ticks3 ++ rstripWs ('\n' :: com)) = ticks3 :: ls' := by
    rcases hRcases with hR | hR
    · rw [hR]
      exact ⟨[], by rw [List.append_nil]; rfl⟩
    · rw [hR]
      exact ⟨splitNL (rstripWs com), by rw [splitNL_append_nl]; rfl⟩
  have hne1 : rstripWs (ticks3 ++ '\n' :: com) ≠ [] := by
    rw [rstripWs_ticksX]
    simp [ticks3]
  have hne2 : rstripWs ('\n' :: (ticks3 ++ '\n' :: com)) ≠ [] := by
    rw [rstripWs_cons_of_ne _ _ (Or.inr hne1)]
    simp
  have hne3 : rstripWs (c ++ '\n' :: (ticks3 ++ '\n' :: com)) ≠ [] := by
    rw [rstripWs_append_right _ _ hne2]
    intro hh
    exact hne2 (List.append_eq_nil.mp hh).2
  have hstrip : pyStripChars (wrapFence c com) =
      ticks3 ++ '\n' :: (c ++ '\n' :: (ticks3 ++ rstripWs ('\n' :: com))) := by
    show pyStripChars
        (btick :: btick :: btick :: '\n' :: (c ++ '\n' :: (ticks3 ++ '\n' :: com))) = _
    rw [pyStrip_head _ _ btick_not_ws,
      rstripWs_cons_of_ne _ _ (Or.inl btick_not_ws),
      rstripWs_cons_of_ne _ _ (Or.inl btick_not_ws),
      rstripWs_cons_of_ne _ _ (Or.inr hne3),
      rstripWs_append_right _ _ hne2,
      rstripWs_cons_of_ne _ _ (Or.inr hne1),
      rstripWs_ticksX]
    rfl
  have hdef : defenceChars (wrapFence c com) = c := by
    obtain ⟨ls', hls'⟩ := hsW
    simp only [defenceChars]
    rw [hstrip,
      if_pos (show startsWithTicks
        (ticks3 ++ '\n' :: (c ++ '\n' :: (ticks3 ++ rstripWs ('\n' :: com)))) = true
        from rfl),
      splitNL_append_nl, splitNL_append_nl, hls']
    show joinNL (fenceLoop (ticks3 :: (splitNL c ++ ticks3 :: ls')) false) = c
    rw [fenceLoop_open, fenceLoop_append _ _ h2, fenceLoop_break,
      List.append_nil]
    exact joinNL_splitNL c
  have hdefc : defenceChars c = c := by
    rw [defence_no_ticks c (by rw [h0]; exact h1), h0]
  exact safeJson_congr _ _ (by rw [hdef, hdefc])

/-- Witness for the amended claim C5: a fenced `{"n": [2]}` payload followed
by commentary decodes exactly like the bare payload. -/
theorem claim5_witness :
    safeJsonChars (wrapFence c5wit.data c5noise.data) = safeJsonChars c5wit.data ∧
    safeJsonChars c5wit.data = Json.obj (.fcons keyN (.arr (toJL [Json.num 2])) .fnil) := by
  have h := claim5_fence_transparent c5wit.data c5noise.data (by rfl) (by rfl)
    (by decide)
  exact ⟨h, by rfl⟩

/-! ## Decimal digit printing: correctness of `natDigits` -/

theorem natDigitsCore_irrel (n : Nat) :
    ∀ f g acc, n < f → n < g →
      natDigitsCore f n acc = natDigitsCore g n acc := by
  induction n using Nat.strong_induction_on with
  | _ n ih =>
    intro f g acc hf hg
    match f, g with
    | f' + 1, g' + 1 =>
      by_cases h10 : n < 10
      · simp [natDigitsCore, h10]
      · have hd : n / 10 < n := Nat.div_lt_self (by omega) (by omega)
        simp only [natDigitsCore, h10, if_false]
        exact ih (n / 10) hd f' g' _ (by omega) (by omega)

theorem natDigitsCore_acc (n : Nat) :
    ∀ f acc, n < f →
      natDigitsCore f n acc = natDigitsCore f n [] ++ acc := by
  induction n using Nat.strong_induction_on with
  | _ n ih =>
    intro f acc hf
    match f with
    | f' + 1 =>
      by_cases h10 : n < 10
      · simp [natDigitsCore, h10]
      · have hd : n / 10 < n := Nat.div_lt_self (by omega) (by omega)
        simp only [natDigitsCore, h10, if_false]
        rw [ih (n / 10) hd f' (digitCh (n % 10) :: acc) (by omega),
          ih (n / 10) hd f' [digitCh (n % 10)] (by omega)]
        simp

theorem natDigits_lt10 (n : Nat) (h : n < 10) : natDigits n = [digitCh n] := by
  simp [natDigits, natDigitsCore, h]

theorem natDigits_ge10 (n : Nat) (h : 10 ≤ n) :
    natDigits n = natDigits (n / 10) ++ [digitCh (n % 10)] := by
  have hd : n / 10 < n := Nat.div_lt_self (by omega) (by omega)
  show natDigitsCore (n + 1) n [] = _
  simp only [natDigitsCore, Nat.not_lt_of_le h, if_false]
  rw [natDigitsCore_acc (n / 10) n _ (by omega),
    natDigitsCore_irrel (n / 10) n (n / 10 + 1) [] (by omega) (by omega)]
  rfl

theorem digitCh_toNat (n : Nat) (h : n < 10) : (digitCh n).toNat = 48 + n := by
  interval_cases n <;> decide

theorem isDigitCh_digitCh (n : Nat) (h : n < 10) : isDigitCh (digitCh n) = true := by
  interval_cases n <;> decide

theorem digitsVal_append_one (a : List Char) (d : Char) :
    digitsVal (a ++ [d]) = 10 * digitsVal a + (d.toNat - 48) := by
  unfold digitsVal
  rw [List.foldl_append]
  simp [Nat.mul_comm]

theorem digitsVal_natDigits (n : Nat) : digitsVal (natDigits n) = n := by
  induction n using Nat.strong_induction_on with
  | _ n ih =>
    by_cases h10 : n < 10
    · rw [natDigits_lt10 n h10]
      show 0 * 10 + ((digitCh n).toNat - 48) = n
      rw [digitCh_toNat n h10]
      omega
    · have hd : n / 10 < n := Nat.div_lt_self (by omega) (by omega)
      rw [natDigits_ge10 n (by omega), digitsVal_append_one, ih (n / 10) hd,
        digitCh_toNat (n % 10) (Nat.mod_lt n (by omega))]
      omega

theorem natDigits_all_digits (n : Nat) :
    ∀ c ∈ natDigits n, isDigitCh c = true := by
  induction n using Nat.strong_induction_on with
  | _ n ih =>
    by_cases h10 : n < 10
    · rw [natDigits_lt10 n h10]
      intro c hc
      rw [List.mem_singleton] at hc
      rw [hc]
      exact isDigitCh_digitCh n h10
    · have hd : n / 10 < n := Nat.div_lt_self (by omega) (by omega)
      rw [natDigits_ge10 n (by omega)]
      intro c hc
      rcases List.mem_append.mp hc with hc | hc
      · exact ih (n / 10) hd c hc
      · rw [List.mem_singleton] at hc
        rw [hc]
        exact isDigitCh_digitCh _ (Nat.mod_lt n (by omega))

theorem natDigits_head_pos (n : Nat) (h : 1 ≤ n) :
    ∃ c r, natDigits n = c :: r ∧ 49 ≤ c.toNat ∧ c.toNat ≤ 57 ∧
      (∀ x ∈ r, isDigitCh x = true) := by
  induction n using Nat.strong_induction_on with
  | _ n ih =>
    by_cases h10 : n < 10
    · refine ⟨digitCh n, [], natDigits_lt10 n h10, ?_, ?_, by simp⟩
      · rw [digitCh_toNat n h10]; omega
      · rw [digitCh_toNat n h10]; omega
    · have hd : n / 10 < n := Nat.div_lt_self (by omega) (by omega)
      obtain ⟨c, r, hr, h1, h2, h3⟩ := ih (n / 10) hd (by
        have : 1 ≤ n / 10 := Nat.one_le_div_iff (by omega) |>.mpr (by omega)
        exact this)
      refine ⟨c, r ++ [digitCh (n % 10)], ?_, h1, h2, ?_⟩
      · rw [natDigits_ge10 n (by omega), hr]
        rfl
      · intro x hx
        rcases List.mem_append.mp hx with hx | hx
        · exact h3 x hx
        · rw [List.mem_singleton] at hx
          rw [hx]
          exact isDigitCh_digitCh _ (Nat.mod_lt n (by omega))

theorem natDigits_zero : natDigits 0 = [digitCh 0] := rfl

theorem natDigits_ne_nil (n : Nat) : natDigits n ≠ [] := by
  by_cases h10 : n < 10
  · rw [natDigits_lt10 n h10]
    simp
  · rw [natDigits_ge10 n (by omega)]
    simp

theorem natDigits_last_digit (n : Nat) :
    ∃ r c, natDigits n = r ++ [c] ∧ isDigitCh c = true := by
  by_cases h10 : n < 10
  · exact ⟨[], digitCh n, natDigits_lt10 n h10, isDigitCh_digitCh n h10⟩
  · exact ⟨natDigits (n / 10), digitCh (n % 10), natDigits_ge10 n (by omega),
      isDigitCh_digitCh _ (Nat.mod_lt n (by omega))⟩

/-! ## Character and takeWhile helpers -/

theorem charNe_of_toNat (c d : Char) (h : c.toNat ≠ d.toNat) : c ≠ d :=
  fun he => h (congrArg Char.toNat he)

theorem char_beq_false (c d : Char) (h : c.toNat ≠ d.toNat) : (c == d) = false :=
  beq_eq_false_iff_ne.mpr (charNe_of_toNat c d h)

theorem isDigitCh_toNat (c : Char) (h : isDigitCh c = true) :
    48 ≤ c.toNat ∧ c.toNat ≤ 57 := by
  unfold isDigitCh at h
  simp only [Bool.and_eq_true, decide_eq_true_eq] at h
  exact h

theorem takeWhile_head_false (p : Char → Bool) (rest : List Char)
    (h : match rest with | [] => True | c :: _ => p c = false) :
    rest.takeWhile p = [] := by
  cases rest with
  | nil => rfl
  | cons c r => simp [List.takeWhile_cons, h]

theorem takeWhile_app (p : Char → Bool) (a rest : List Char)
    (ha : ∀ x ∈ a, p x = true) (hr : rest.takeWhile p = []) :
    (a ++ rest).takeWhile p = a := by
  induction a with
  | nil => exact hr
  | cons x t ih =>
    rw [List.cons_append, List.takeWhile_cons,
      if_pos (ha x (List.mem_cons_self x t)),
      ih (fun y hy => ha y (List.mem_cons_of_mem x hy))]

theorem notNumExt_parts (c : Char) (r : List Char)
    (h : notNumExt (c :: r) = true) :
    isDigitCh c = false ∧ (c == '.') = false ∧ (c == 'e') = false ∧
      (c == 'E') = false := by
  unfold notNumExt at h
  simp only [Bool.and_eq_true, Bool.not_eq_true', bne_iff_ne, ne_eq] at h
  refine ⟨h.1.1.1, ?_, ?_, ?_⟩
  · exact beq_eq_false_iff_ne.mpr h.1.1.2
  · exact beq_eq_false_iff_ne.mpr h.1.2
  · exact beq_eq_false_iff_ne.mpr h.2

theorem notNumExt_takeWhile (rest : List Char) (h : notNumExt rest = true) :
    rest.takeWhile isDigitCh = [] := by
  cases rest with
  | nil => rfl
  | cons c r => simp [List.takeWhile_cons, (notNumExt_parts c r h).1]

/-! ## The number scanner on printed numbers -/

theorem scanExpPart_no (rest : List Char) (pos : Nat)
    (h : notNumExt rest = true) : scanExpPart rest pos = (none, rest, pos) := by
  cases rest with
  | nil => rfl
  | cons c r =>
    obtain ⟨_, _, he, hE⟩ := notNumExt_parts c r h
    simp [scanExpPart, he, hE]

theorem scanNumTail_plain (neg : Bool) (ip rest : List Char) (pos : Nat)
    (hr : notNumExt rest = true) :
    scanNumTail neg ip rest pos =
      some (.num (if neg then -(digitsVal ip : Int) else (digitsVal ip : Int)),
        rest, pos) := by
  cases rest with
  | nil => simp [scanNumTail, scanExpPart]
  | cons c r =>
    obtain ⟨_, hdot, he, hE⟩ := notNumExt_parts c r hr
    simp [scanNumTail, scanExpPart, hdot, he, hE]

theorem scanNumber_intRepr (n : Int) (rest : List Char) (pos : Nat)
    (hr : notNumExt rest = true) :
    scanNumber (intRepr n ++ rest) pos =
      some (.num n, rest, pos + (intRepr n).length) := by
  have htw := notNumExt_takeWhile rest hr
  by_cases hneg : n < 0
  · have hm : 1 ≤ n.natAbs := by omega
    obtain ⟨c, r, hcr, h49, h57, hdigs⟩ := natDigits_head_pos n.natAbs hm
    have hrepr : intRepr n = '-' :: natDigits n.natAbs := by
      simp [intRepr, hneg]
    have hc0 : (c == '0') = false :=
      char_beq_false c '0' (by
        have h48 : ('0' : Char).toNat = 48 := rfl
        omega)
    have hdig : isDigitCh c = true := by
      unfold isDigitCh
      simp only [Bool.and_eq_true, decide_eq_true_eq]
      omega
    have hval : digitsVal (c :: r) = n.natAbs := by
      have := digitsVal_natDigits n.natAbs
      rw [hcr] at this
      exact this
    rw [hrepr, hcr]
    simp only [List.cons_append, scanNumber, if_pos rfl,
      show (('-' : Char) == '-') = true from rfl, hc0, Bool.false_eq_true,
      if_false, hdig, if_true,
      takeWhile_app isDigitCh r rest hdigs htw, List.drop_left,
      scanNumTail_plain true (c :: r) rest _ hr, hval]
    have hn : -(n.natAbs : Int) = n := by omega
    simp only [hn, List.length_cons]
    norm_num
    omega
  · have hrepr : intRepr n = natDigits n.natAbs := by
      simp [intRepr, hneg]
    by_cases h0 : n.natAbs = 0
    · have hn0 : n = 0 := by omega
      subst hn0
      rw [hrepr]
      show scanNumber (natDigits 0 ++ rest) pos = _
      rw [natDigits_zero]
      have hcd : (digitCh 0 == '-') = false :=
        char_beq_false _ '-' (by rw [digitCh_toNat 0 (by omega)]; decide)
      have hcz : ((digitCh 0) == '0') = true := by decide
      simp only [List.cons_append, List.nil_append, scanNumber, hcd,
        Bool.false_eq_true, if_false, hcz, if_true,
        scanNumTail_plain false ['0'] rest _ hr]
      simp [digitsVal, natDigits_zero]
    · have hm1 : 1 ≤ n.natAbs := by omega
      obtain ⟨c, r, hcr, h49, h57, hdigs⟩ := natDigits_head_pos n.natAbs hm1
      have hcd : (c == '-') = false :=
        char_beq_false c '-' (by
          have h45 : ('-' : Char).toNat = 45 := rfl
          omega)
      have hc0 : (c == '0') = false :=
        char_beq_false c '0' (by
          have h48 : ('0' : Char).toNat = 48 := rfl
          omega)
      have hdig : isDigitCh c = true := by
        unfold isDigitCh
        simp only [Bool.and_eq_true, decide_eq_true_eq]
        omega
      have hval : digitsVal (c :: r) = n.natAbs := by
        have := digitsVal_natDigits n.natAbs
        rw [hcr] at this
        exact this
      rw [hrepr, hcr]
      simp only [List.cons_append, scanNumber, hcd, Bool.false_eq_true,
        if_false, hc0, hdig, if_true,
        takeWhile_app isDigitCh r rest hdigs htw, List.drop_left,
        scanNumTail_plain false (c :: r) rest _ hr, hval]
      have hn : (n.natAbs : Int) = n := by omega
      simp only [hn, List.length_cons]
      norm_num
      omega

/-! ## The number scanner on printed decimal literals -/

theorem ipOk_elim (ip : List Char) (h : ipOk ip = true) :
    ip = ['0'] ∨ ∃ c r, ip = c :: r ∧ 49 ≤ c.toNat ∧ c.toNat ≤ 57 ∧
      (∀ x ∈ r, isDigitCh x = true) := by
  match ip with
  | [] => exact absurd h (by decide)
  | c :: r =>
    unfold ipOk at h
    simp only [Bool.or_eq_true, Bool.and_eq_true, beq_iff_eq,
      List.isEmpty_iff, decide_eq_true_eq, List.all_eq_true] at h
    rcases h with ⟨hc, hr⟩ | ⟨⟨h1, h2⟩, h3⟩
    · left; rw [hc, hr]
    · right; exact ⟨c, r, rfl, h1, h2, h3⟩

theorem exOk_elim (ech : Char) (sgn : Option Char) (digs : List Char)
    (h : exOk (some ⟨ech, sgn, digs⟩) = true) :
    (ech = 'e' ∨ ech = 'E') ∧ (sgn = none ∨ sgn = some '+' ∨ sgn = some '-') ∧
      digs ≠ [] ∧ ∀ x ∈ digs, isDigitCh x = true := by
  unfold exOk at h
  simp only [Bool.and_eq_true, Bool.or_eq_true, beq_iff_eq,
    Bool.not_eq_true', List.isEmpty_eq_false, List.all_eq_true] at h
  obtain ⟨⟨⟨he, hs⟩, hd⟩, ha⟩ := h
  refine ⟨he, ?_, hd, ha⟩
  cases sgn with
  | none => exact Or.inl rfl
  | some s =>
    simp only [Bool.or_eq_true, beq_iff_eq] at hs
    rcases hs with hs | hs
    · exact Or.inr (Or.inl (by rw [hs]))
    · exact Or.inr (Or.inr (by rw [hs]))

theorem expHead_tw (ex : Option DecExp) (rest : List Char)
    (hex : exOk ex = true) (hr : notNumExt rest = true) :
    (expPartChars ex ++ rest).takeWhile isDigitCh = [] := by
  cases ex with
  | none => simpa [expPartChars] using notNumExt_takeWhile rest hr
  | some e =>
    obtain ⟨ech, sgn, digs⟩ := e
    obtain ⟨he, _, _, _⟩ := exOk_elim ech sgn digs hex
    have hnd : isDigitCh ech = false := by
      rcases he with he | he <;> rw [he] <;> decide
    show ((ech :: _) ++ rest).takeWhile isDigitCh = []
    rw [List.cons_append]
    exact takeWhile_head_false _ _ hnd

theorem scanExpPart_print (ex : Option DecExp) (rest : List Char) (pos : Nat)
    (hex : exOk ex = true) (hr : notNumExt rest = true) :
    scanExpPart (expPartChars ex ++ rest) pos =
      (ex, rest, pos + (expPartChars ex).length) := by
  cases ex with
  | none => simpa [expPartChars] using scanExpPart_no rest pos hr
  | some e =>
    obtain ⟨ech, sgn, digs⟩ := e
    obtain ⟨he, hsgn, hdne, hdigs⟩ := exOk_elim ech sgn digs hex
    have hee : (ech == 'e' || ech == 'E') = true := by
      rcases he with he | he <;> simp [he]
    obtain ⟨d, ds, hde⟩ : ∃ d ds, digs = d :: ds := by
      cases digs with
      | nil => exact absurd rfl hdne
      | cons d ds => exact ⟨d, ds, rfl⟩
    subst hde
    have hdd : isDigitCh d = true := hdigs d (List.mem_cons_self d ds)
    have hds : ∀ x ∈ ds, isDigitCh x = true :=
      fun x hx => hdigs x (List.mem_cons_of_mem d hx)
    have hdnat := isDigitCh_toNat d hdd
    have hplus : (d == '+') = false :=
      char_beq_false d '+' (by
        have h43 : ('+' : Char).toNat = 43 := rfl
        omega)
    have hminus : (d == '-') = false :=
      char_beq_false d '-' (by
        have h45 : ('-' : Char).toNat = 45 := rfl
        omega)
    have htw2 : List.takeWhile isDigitCh (d :: (ds ++ rest)) = d :: ds := by
      rw [List.takeWhile_cons, if_pos hdd,
        takeWhile_app _ ds rest hds (notNumExt_takeWhile rest hr)]
    have hdrop : List.drop (d :: ds).length (d :: (ds ++ rest)) = rest := by
      simp only [List.length_cons, List.drop_succ_cons, List.drop_left]
    rcases hsgn with hs | hs | hs
    · subst hs
      have hform : expPartChars (some ⟨ech, none, d :: ds⟩) ++ rest =
          ech :: (d :: (ds ++ rest)) := by
        simp [expPartChars]
      rw [hform]
      simp only [scanExpPart, hee, if_true, hplus, hminus, Bool.or_self,
        Bool.false_eq_true, if_false, htw2, List.isEmpty_cons, hdrop]
      simp [expPartChars]
      omega
    · subst hs
      have hform : expPartChars (some ⟨ech, some '+', d :: ds⟩) ++ rest =
          ech :: '+' :: (d :: (ds ++ rest)) := by
        simp [expPartChars]
      rw [hform]
      simp only [scanExpPart, hee, if_true,
        show (('+' : Char) == '+') = true from rfl, Bool.true_or, htw2,
        List.isEmpty_cons, Bool.false_eq_true, if_false, hdrop]
      simp [expPartChars]
      omega
    · subst hs
      have hform : expPartChars (some ⟨ech, some '-', d :: ds⟩) ++ rest =
          ech :: '-' :: (d :: (ds ++ rest)) := by
        simp [expPartChars]
      rw [hform]
      simp only [scanExpPart, hee, if_true,
        show (('-' : Char) == '-') = true from rfl, Bool.or_true, htw2,
        List.isEmpty_cons, Bool.false_eq_true, if_false, hdrop]
      simp [expPartChars]
      omega

theorem decBody_tw (fp : List Char) (ex : Option DecExp) (rest : List Char)
    (hex : exOk ex = true) (hr : notNumExt rest = true) :
    ((if fp.isEmpty then ([] : List Char) else '.' :: fp) ++
      (expPartChars ex ++ rest)).takeWhile isDigitCh = [] := by
  cases fp with
  | nil => simpa using expHead_tw ex rest hex hr
  | cons d fd =>
    show (('.' :: (d :: fd)) ++ (expPartChars ex ++ rest)).takeWhile isDigitCh = []
    rw [List.cons_append]
    exact takeWhile_head_false isDigitCh
      ('.' :: ((d :: fd) ++ (expPartChars ex ++ rest)))
      (show isDigitCh '.' = false by decide)

theorem scanNumTail_decTail (neg : Bool) (ip fp : List Char) (ex : Option DecExp)
    (rest : List Char) (pos : Nat)
    (hfp : ∀ x ∈ fp, isDigitCh x = true)
    (hex : exOk ex = true)
    (hne : fp ≠ [] ∨ ex ≠ none)
    (hr : notNumExt rest = true) :
    scanNumTail neg ip
      ((if fp.isEmpty then ([] : List Char) else '.' :: fp) ++
        (expPartChars ex ++ rest)) pos =
      some (.dec neg ip fp ex, rest,
        pos + ((if fp.isEmpty then ([] : List Char) else '.' :: fp) ++
          expPartChars ex).length) := by
  cases fp with
  | nil =>
    obtain ⟨e, heq⟩ : ∃ e, ex = some e := by
      cases ex with
      | none =>
        rcases hne with h | h
        · exact absurd rfl h
        · exact absurd rfl h
      | some e => exact ⟨e, rfl⟩
    subst heq
    obtain ⟨ech, sgn, digs⟩ := e
    obtain ⟨hee, _, _, _⟩ := exOk_elim ech sgn digs hex
    have hnd : (ech == '.') = false :=
      char_beq_false ech '.' (by rcases hee with h | h <;> (rw [h]; decide))
    obtain ⟨S, hS⟩ : ∃ S, expPartChars (some ⟨ech, sgn, digs⟩) = ech :: S :=
      ⟨_, rfl⟩
    have hsplit : expPartChars (some ⟨ech, sgn, digs⟩) ++ rest =
        ech :: (S ++ rest) := by
      rw [hS]
      rfl
    show scanNumTail neg ip (expPartChars (some ⟨ech, sgn, digs⟩) ++ rest) pos = _
    rw [hsplit]
    simp only [scanNumTail, hnd, Bool.false_eq_true, if_false]
    rw [← hsplit, scanExpPart_print _ rest pos hex hr]
    simp

  | cons d fd =>
    have htw : List.takeWhile isDigitCh
        ((d :: fd) ++ (expPartChars ex ++ rest)) = d :: fd :=
      takeWhile_app _ _ _ hfp (expHead_tw ex rest hex hr)
    have hdrop : List.drop (d :: fd).length
        ((d :: fd) ++ (expPartChars ex ++ rest)) = expPartChars ex ++ rest :=
      List.drop_left _ _
    have hexp : ∀ p, scanExpPart (expPartChars ex ++ rest) p =
        (ex, rest, p + (expPartChars ex).length) :=
      fun p => scanExpPart_print ex rest p hex hr
    show scanNumTail neg ip
        (('.' :: (d :: fd)) ++ (expPartChars ex ++ rest)) pos = _
    rw [List.cons_append]
    simp only [scanNumTail, show (('.' : Char) == '.') = true from rfl, if_true,
      htw, List.isEmpty_cons, Bool.false_eq_true, if_false, hdrop, hexp]
    simp [List.length_append]
    omega

theorem scanNumber_decRepr (neg : Bool) (ip fp : List Char) (ex : Option DecExp)
    (rest : List Char) (pos : Nat)
    (hw : wfVal (.dec neg ip fp ex) = true)
    (hr : notNumExt rest = true) :
    scanNumber (dumpsVal (.dec neg ip fp ex) ++ rest) pos =
      some (.dec neg ip fp ex, rest,
        pos + (dumpsVal (.dec neg ip fp ex)).length) := by
  have hwu := hw
  unfold wfVal at hwu
  simp only [Bool.and_eq_true, List.all_eq_true] at hwu
  obtain ⟨⟨⟨hip, hfp⟩, hex⟩, hne0⟩ := hwu
  have hne : fp ≠ [] ∨ ex ≠ none := by
    cases hfpn : fp with
    | cons a b => exact Or.inl (by simp)
    | nil =>
      cases hexn : ex with
      | some e => exact Or.inr (by simp)
      | none =>
        rw [hfpn, hexn] at hne0
        simp at hne0
  have hdt : ∀ ipp p, scanNumTail neg ipp
      ((if fp.isEmpty then ([] : List Char) else '.' :: fp) ++
        (expPartChars ex ++ rest)) p =
      some (.dec neg ipp fp ex, rest,
        p + ((if fp.isEmpty then ([] : List Char) else '.' :: fp) ++
          expPartChars ex).length) :=
    fun ipp p => scanNumTail_decTail neg ipp fp ex rest p hfp hex hne hr
  rcases ipOk_elim ip hip with hip0 | ⟨c, r, hipc, h49, h57, hrd⟩
  · subst hip0
    cases neg with
    | true =>
      have hform : dumpsVal (.dec true ['0'] fp ex) ++ rest =
          '-' :: '0' :: ((if fp.isEmpty then ([] : List Char) else '.' :: fp) ++
            (expPartChars ex ++ rest)) := by
        simp [dumpsVal, List.append_assoc]
      rw [hform]
      simp only [scanNumber, show (('-' : Char) == '-') = true from rfl, if_true,
        show (('0' : Char) == '0') = true from rfl, hdt]
      simp [dumpsVal, List.length_append]
      omega
    | false =>
      have hform : dumpsVal (.dec false ['0'] fp ex) ++ rest =
          '0' :: ((if fp.isEmpty then ([] : List Char) else '.' :: fp) ++
            (expPartChars ex ++ rest)) := by
        simp [dumpsVal, List.append_assoc]
      rw [hform]
      simp only [scanNumber, show (('0' : Char) == '-') = false from rfl,
        Bool.false_eq_true, if_false, show (('0' : Char) == '0') = true from rfl,
        if_true, hdt]
      simp [dumpsVal, List.length_append]
      omega
  · subst hipc
    have hcm : (c == '-') = false :=
      char_beq_false c '-' (by
        have h45 : ('-' : Char).toNat = 45 := rfl
        omega)
    have hc0 : (c == '0') = false :=
      char_beq_false c '0' (by
        have h48 : ('0' : Char).toNat = 48 := rfl
        omega)
    have hdig : isDigitCh c = true := by
      unfold isDigitCh
      simp only [Bool.and_eq_true, decide_eq_true_eq]
      omega
    have htwr : List.takeWhile isDigitCh
        (r ++ ((if fp.isEmpty then ([] : List Char) else '.' :: fp) ++
          (expPartChars ex ++ rest))) = r :=
      takeWhile_app _ _ _ hrd (decBody_tw fp ex rest hex hr)
    have hdropr : List.drop r.length
        (r ++ ((if fp.isEmpty then ([] : List Char) else '.' :: fp) ++
          (expPartChars ex ++ rest))) =
        (if fp.isEmpty then ([] : List Char) else '.' :: fp) ++
          (expPartChars ex ++ rest) :=
      List.drop_left _ _
    cases neg with
    | true =>
      have hform : dumpsVal (.dec true (c :: r) fp ex) ++ rest =
          '-' :: c :: (r ++
            ((if fp.isEmpty then ([] : List Char) else '.' :: fp) ++
              (expPartChars ex ++ rest))) := by
        simp [dumpsVal, List.append_assoc]
      rw [hform]
      simp only [scanNumber, show (('-' : Char) == '-') = true from rfl, if_true,
        hc0, Bool.false_eq_true, if_false, hdig, htwr, hdropr, hdt]
      simp [dumpsVal, List.length_append]
      omega
    | false =>
      have hform : dumpsVal (.dec false (c :: r) fp ex) ++ rest =
          c :: (r ++
            ((if fp.isEmpty then ([] : List Char) else '.' :: fp) ++
              (expPartChars ex ++ rest))) := by
        simp [dumpsVal, List.append_assoc]
      rw [hform]
      simp only [scanNumber, hcm, Bool.false_eq_true, if_false, hc0, hdig,
        if_true, htwr, hdropr, hdt]
      simp [dumpsVal, List.length_append]
      omega

/-! ## The string scanner on encoder output -/

theorem char_valid_nat (c : Char) :
    c.toNat < 0xd800 ∨ (0xdfff < c.toNat ∧ c.toNat < 0x110000) := by
  rcases c.valid with h | ⟨h1, h2⟩
  · exact Or.inl h
  · exact Or.inr ⟨h1, h2⟩

theorem hexVal_hexDigitCh (d : Nat) (h : d < 16) :
    hexVal (hexDigitCh d) = some d := by
  interval_cases d <;> decide

theorem hex4_hex4Chars (n : Nat) (h : n < 65536) :
    (match hex4Chars n with
     | [a, b, c, d] => hex4 a b c d
     | _ => none) = some n := by
  show hex4 (hexDigitCh (n / 4096 % 16)) (hexDigitCh (n / 256 % 16))
      (hexDigitCh (n / 16 % 16)) (hexDigitCh (n % 16)) = some n
  unfold hex4
  rw [hexVal_hexDigitCh _ (Nat.mod_lt _ (by omega)),
    hexVal_hexDigitCh _ (Nat.mod_lt _ (by omega)),
    hexVal_hexDigitCh _ (Nat.mod_lt _ (by omega)),
    hexVal_hexDigitCh _ (Nat.mod_lt _ (by omega))]
  show some _ = some n
  congr 1
  omega

/-- One scanner step across an escaped surrogate pair, with symbolic hex
digits: used to keep the instantiated terms small in the round-trip proof. -/
theorem scanStringF_surr (f : Nat) (a b c d k1 k2 k3 k4 : Char) (r5 : List Char)
    (pos bg uni uni2 : Nat)
    (hh : hex4 a b c d = some uni)
    (hs1 : (decide (0xd800 ≤ uni) && decide (uni ≤ 0xdbff)) = true)
    (hh2 : hex4 k1 k2 k3 k4 = some uni2)
    (hs2 : (decide (0xdc00 ≤ uni2) && decide (uni2 ≤ 0xdfff)) = true) :
    scanStringF (f + 1) ('\\' :: 'u' :: a :: b :: c :: d :: '\\' :: 'u' ::
        k1 :: k2 :: k3 :: k4 :: r5) pos bg =
      match scanStringF f r5 (pos + 12) bg with
      | .error er => .error er
      | .ok (tl, rr, pp) =>
        .ok (Char.ofNat (0x10000 + (uni - 0xd800) * 1024 + (uni2 - 0xdc00)) :: tl,
          rr, pp) := by
  simp only [scanStringF,
    show (('\\' : Char) == dquote) = false from by decide, Bool.false_eq_true,
    if_false,
    show (('\\' : Char) == '\\') = true from by decide, if_true,
    show (('u' : Char) == 'u') = true from by decide,
    hh, hs1,
    show (('\\' : Char) == '\\' && ('u' : Char) == 'u') = true from by decide,
    hh2, hs2, Bool.true_and, if_true]

theorem scanString_enc (l : List Char) :
    ∀ f rest pos bg, l.length < f →
      scanStringF f (encBody l ++ (dquote :: rest)) pos bg =
        .ok (l, rest, pos + ((encBody l).length + 1)) := by
  induction l with
  | nil =>
    intro f rest pos bg hf
    match f, hf with
    | g + 1, _ =>
      show scanStringF (g + 1) (dquote :: rest) pos bg = _
      simp [scanStringF, encBody]
  | cons c t ih =>
    intro f rest pos bg hf
    match f, hf with
    | g + 1, hf =>
      have hg : t.length < g := by
        simp only [List.length_cons] at hf
        omega
      have ihg := ih g rest
      by_cases h1 : c = dquote
      · subst h1
        show scanStringF (g + 1)
            (('\\' :: dquote :: encBody t) ++ (dquote :: rest)) pos bg = _
        simp only [List.append_eq, List.cons_append, scanStringF,
          show (('\\' : Char) == dquote) = false from by decide,
          Bool.false_eq_true, if_false,
          show (('\\' : Char) == '\\') = true from by decide, if_true,
          show ((dquote : Char) == 'u') = false from by decide,
          show escMap dquote = some dquote from by decide,
          ihg (pos + 2) bg hg]
        simp [encBody, encChar]
        omega
      · by_cases h2 : c = '\\'
        · subst h2
          show scanStringF (g + 1)
              (('\\' :: '\\' :: encBody t) ++ (dquote :: rest)) pos bg = _
          simp only [List.append_eq, List.cons_append, scanStringF,
            show (('\\' : Char) == dquote) = false from by decide,
            Bool.false_eq_true, if_false,
            show (('\\' : Char) == '\\') = true from by decide, if_true,
            show (('\\' : Char) == 'u') = false from by decide,
            show escMap '\\' = some '\\' from by decide,
            ihg (pos + 2) bg hg]
          simp [encBody, show encChar '\\' = ['\\', '\\'] from by decide]
          omega
        · by_cases h3 : c = '\n'
          · subst h3
            show scanStringF (g + 1)
                (('\\' :: 'n' :: encBody t) ++ (dquote :: rest)) pos bg = _
            simp only [List.append_eq, List.cons_append, scanStringF,
              show (('\\' : Char) == dquote) = false from by decide,
              Bool.false_eq_true, if_false,
              show (('\\' : Char) == '\\') = true from by decide, if_true,
              show (('n' : Char) == 'u') = false from by decide,
              show escMap 'n' = some '\n' from by decide,
              ihg (pos + 2) bg hg]
            simp [encBody, show encChar '\n' = ['\\', 'n'] from by decide]
            omega
          · by_cases h4 : c = '\r'
            · subst h4
              show scanStringF (g + 1)
                  (('\\' :: 'r' :: encBody t) ++ (dquote :: rest)) pos bg = _
              simp only [List.append_eq, List.cons_append, scanStringF,
                show (('\\' : Char) == dquote) = false from by decide,
                Bool.false_eq_true, if_false,
                show (('\\' : Char) == '\\') = true from by decide, if_true,
                show (('r' : Char) == 'u') = false from by decide,
                show escMap 'r' = some '\r' from by decide,
                ihg (pos + 2) bg hg]
              simp [encBody, show encChar '\r' = ['\\', 'r'] from by decide]
              omega
            · by_cases h5 : c = '\t'
              · subst h5
                show scanStringF (g + 1)
                    (('\\' :: 't' :: encBody t) ++ (dquote :: rest)) pos bg = _
                simp only [List.append_eq, List.cons_append, scanStringF,
                  show (('\\' : Char) == dquote) = false from by decide,
                  Bool.false_eq_true, if_false,
                  show (('\\' : Char) == '\\') = true from by decide, if_true,
                  show (('t' : Char) == 'u') = false from by decide,
                  show escMap 't' = some '\t' from by decide,
                  ihg (pos + 2) bg hg]
                simp [encBody, show encChar '\t' = ['\\', 't'] from by decide]
                omega
              · by_cases h6 : c.toNat = 8
                · have hc : c = Char.ofNat 8 := by rw [← h6, Char.ofNat_toNat]
                  subst hc
                  show scanStringF (g + 1)
                      (('\\' :: 'b' :: encBody t) ++ (dquote :: rest)) pos bg = _
                  simp only [List.append_eq, List.cons_append, scanStringF,
                    show (('\\' : Char) == dquote) = false from by decide,
                    Bool.false_eq_true, if_false,
                    show (('\\' : Char) == '\\') = true from by decide, if_true,
                    show (('b' : Char) == 'u') = false from by decide,
                    show escMap 'b' = some (Char.ofNat 8) from by decide,
                    ihg (pos + 2) bg hg]
                  simp [encBody, show encChar (Char.ofNat 8) = ['\\', 'b'] from by decide]
                  omega
                · by_cases h7 : c.toNat = 12
                  · have hc : c = Char.ofNat 12 := by rw [← h7, Char.ofNat_toNat]
                    subst hc
                    show scanStringF (g + 1)
                        (('\\' :: 'f' :: encBody t) ++ (dquote :: rest)) pos bg = _
                    simp only [List.append_eq, List.cons_append, scanStringF,
                      show (('\\' : Char) == dquote) = false from by decide,
                      Bool.false_eq_true, if_false,
                      show (('\\' : Char) == '\\') = true from by decide, if_true,
                      show (('f' : Char) == 'u') = false from by decide,
                      show escMap 'f' = some (Char.ofNat 12) from by decide,
                      ihg (pos + 2) bg hg]
                    simp [encBody,
                      show encChar (Char.ofNat 12) = ['\\', 'f'] from by decide]
                    omega
                  · by_cases h8 : c.toNat < 0x20 ∨ 0x7e < c.toNat
                    · by_cases h9 : c.toNat < 0x10000
                      · have henc : encChar c = '\\' :: 'u' :: hex4Chars c.toNat := by
                          simp only [encChar, beq_eq_false_iff_ne.mpr h1,
                            beq_eq_false_iff_ne.mpr h2, beq_eq_false_iff_ne.mpr h3,
                            beq_eq_false_iff_ne.mpr h4, beq_eq_false_iff_ne.mpr h5,
                            beq_eq_false_iff_ne.mpr h6, beq_eq_false_iff_ne.mpr h7,
                            Bool.false_eq_true, if_false]
                          rw [if_pos (by rcases h8 with h | h <;> simp [h]), if_pos h9]
                        have hhex : hex4 (hexDigitCh (c.toNat / 4096 % 16))
                            (hexDigitCh (c.toNat / 256 % 16))
                            (hexDigitCh (c.toNat / 16 % 16))
                            (hexDigitCh (c.toNat % 16)) = some c.toNat :=
                          hex4_hex4Chars c.toNat h9
                        have hv := char_valid_nat c
                        have hns : (decide (0xd800 ≤ c.toNat) &&
                            decide (c.toNat ≤ 0xdbff)) = false := by
                          rcases hv with h | h
                          · simp
                            omega
                          · simp
                            omega
                        simp only [encBody, henc, hex4Chars, List.append_eq,
                          List.cons_append, List.nil_append, scanStringF,
                          show (('\\' : Char) == dquote) = false from by decide,
                          Bool.false_eq_true, if_false,
                          show (('\\' : Char) == '\\') = true from by decide, if_true,
                          show (('u' : Char) == 'u') = true from by decide,
                          hhex, hns, ihg (pos + 6) bg hg]
                        simp [Char.ofNat_toNat, hex4Chars]
                        omega
                      · have hv := char_valid_nat c
                        have hlt : c.toNat < 0x110000 := by omega
                        have hhi : 0xd800 + (c.toNat - 0x10000) / 1024 < 0x10000 := by
                          omega
                        have hlo : 0xdc00 + (c.toNat - 0x10000) % 1024 < 0x10000 := by
                          omega
                        have henc : encChar c =
                            '\\' :: 'u' :: hex4Chars (0xd800 + (c.toNat - 0x10000) / 1024) ++
                              ('\\' :: 'u' ::
                                hex4Chars (0xdc00 + (c.toNat - 0x10000) % 1024)) := by
                          simp only [encChar, beq_eq_false_iff_ne.mpr h1,
                            beq_eq_false_iff_ne.mpr h2, beq_eq_false_iff_ne.mpr h3,
                            beq_eq_false_iff_ne.mpr h4, beq_eq_false_iff_ne.mpr h5,
                            beq_eq_false_iff_ne.mpr h6, beq_eq_false_iff_ne.mpr h7,
                            Bool.false_eq_true, if_false]
                          rw [if_pos (by rcases h8 with h | h <;> simp [h]), if_neg h9]
                        have hhex1 : hex4
                            (hexDigitCh ((0xd800 + (c.toNat - 0x10000) / 1024) / 4096 % 16))
                            (hexDigitCh ((0xd800 + (c.toNat - 0x10000) / 1024) / 256 % 16))
                            (hexDigitCh ((0xd800 + (c.toNat - 0x10000) / 1024) / 16 % 16))
                            (hexDigitCh ((0xd800 + (c.toNat - 0x10000) / 1024) % 16)) =
                            some (0xd800 + (c.toNat - 0x10000) / 1024) :=
                          hex4_hex4Chars _ hhi
                        have hhex2 : hex4
                            (hexDigitCh ((0xdc00 + (c.toNat - 0x10000) % 1024) / 4096 % 16))
                            (hexDigitCh ((0xdc00 + (c.toNat - 0x10000) % 1024) / 256 % 16))
                            (hexDigitCh ((0xdc00 + (c.toNat - 0x10000) % 1024) / 16 % 16))
                            (hexDigitCh ((0xdc00 + (c.toNat - 0x10000) % 1024) % 16)) =
                            some (0xdc00 + (c.toNat - 0x10000) % 1024) :=
                          hex4_hex4Chars _ hlo
                        have hsur1 : (decide (0xd800 ≤ 0xd800 + (c.toNat - 0x10000) / 1024) &&
                            decide (0xd800 + (c.toNat - 0x10000) / 1024 ≤ 0xdbff)) = true := by
                          simp
                          omega
                        have hsur2 : (decide (0xdc00 ≤ 0xdc00 + (c.toNat - 0x10000) % 1024) &&
                            decide (0xdc00 + (c.toNat - 0x10000) % 1024 ≤ 0xdfff)) = true := by
                          simp
                          omega
                        have hch : Char.ofNat (65536 + (c.toNat - 65536) / 1024 * 1024 +
                            (c.toNat - 65536) % 1024) = c := by
                          rw [show 65536 + (c.toNat - 65536) / 1024 * 1024 +
                            (c.toNat - 65536) % 1024 = c.toNat from by omega,
                            Char.ofNat_toNat]
                        simp only [encBody, henc, hex4Chars, List.append_eq,
                          List.cons_append, List.nil_append]
                        rw [scanStringF_surr _ _ _ _ _ _ _ _ _ _ _ _ _ _
                            hhex1 hsur1 hhex2 hsur2,
                          ihg (pos + 12) bg hg]
                        simp [hex4Chars]
                        exact ⟨hch, by omega⟩
                    · push_neg at h8
                      have hlt20 : ¬(c.toNat < 0x20) := by omega
                      have henc : encChar c = [c] := by
                        simp only [encChar, beq_eq_false_iff_ne.mpr h1,
                          beq_eq_false_iff_ne.mpr h2, beq_eq_false_iff_ne.mpr h3,
                          beq_eq_false_iff_ne.mpr h4, beq_eq_false_iff_ne.mpr h5,
                          beq_eq_false_iff_ne.mpr h6, beq_eq_false_iff_ne.mpr h7,
                          Bool.false_eq_true, if_false]
                        rw [if_neg (by simp; omega)]
                      simp only [encBody, henc, List.append_eq, List.cons_append,
                        List.nil_append, scanStringF, beq_eq_false_iff_ne.mpr h1,
                        beq_eq_false_iff_ne.mpr h2, Bool.false_eq_true, if_false,
                        if_neg hlt20, ihg (pos + 1) bg hg]
                      simp
                      omega

/-! ## Character classes, whitespace skipping, and strip identities -/

theorem not_pySpace_of_toNat (c : Char) (h1 : 33 ≤ c.toNat) (h2 : c.toNat ≤ 126) :
    isPySpace c = false := by
  unfold isPySpace
  rw [char_beq_false c ' ' (show c.toNat ≠ 32 by omega),
    char_beq_false c '\t' (show c.toNat ≠ 9 by omega),
    char_beq_false c '\n' (show c.toNat ≠ 10 by omega),
    char_beq_false c '\r' (show c.toNat ≠ 13 by omega)]
  simp only [Bool.or_eq_false_iff, Bool.and_eq_false_iff,
    beq_eq_false_iff_ne, decide_eq_false_iff_not, ne_eq, true_and]
  omega

theorem not_jsonWs_of_toNat (c : Char) (h1 : 33 ≤ c.toNat) (h2 : c.toNat ≤ 126) :
    isJsonWs c = false := by
  unfold isJsonWs
  rw [char_beq_false c ' ' (show c.toNat ≠ 32 by omega),
    char_beq_false c '\t' (show c.toNat ≠ 9 by omega),
    char_beq_false c '\n' (show c.toNat ≠ 10 by omega),
    char_beq_false c '\r' (show c.toNat ≠ 13 by omega)]
  rfl

theorem skipWs_no (c : Char) (r : List Char) (p : Nat) (h : isJsonWs c = false) :
    skipWs (c :: r) p = (c :: r, p) := by
  simp [skipWs, h]

theorem skipWs_space (r : List Char) (p : Nat) :
    skipWs (' ' :: r) p = skipWs r (p + 1) := by
  simp [skipWs, isJsonWs]

theorem pyStrip_id (l : List Char)
    (h0 : ∀ c, l.head? = some c → isPySpace c = false)
    (h1 : ∀ c, l.getLast? = some c → isPySpace c = false) :
    pyStripChars l = l := by
  unfold pyStripChars
  have hdr : l.dropWhile isPySpace = l := by
    cases l with
    | nil => rfl
    | cons a r => rw [List.dropWhile_cons, if_neg (by simp [h0 a rfl])]
  rw [hdr]
  have hrev : l.reverse.dropWhile isPySpace = l.reverse := by
    cases hr : l.reverse with
    | nil => rfl
    | cons a r2 =>
      rw [List.dropWhile_cons, if_neg ?hn]
      case hn =>
        have hla : l.getLast? = some a := by
          rw [← List.head?_reverse, hr]
          rfl
        simp [h1 a hla]
  rw [hrev, List.reverse_reverse]

theorem startsWithTicks_false (l : List Char) (c : Char)
    (h : l.head? = some c) (hb : (c == btick) = false) :
    startsWithTicks l = false := by
  cases l with
  | nil => rfl
  | cons a r =>
    have ha : a = c := by simpa using h
    subst ha
    cases r with
    | nil => rfl
    | cons b r2 =>
      cases r2 with
      | nil => rfl
      | cons d r3 => simp [startsWithTicks, hb]

/-! ## Lengths of encoded string bodies -/

theorem encChar_len_pos (c : Char) : 1 ≤ (encChar c).length := by
  unfold encChar
  repeat' split
  all_goals simp [hex4Chars]

theorem encBody_length_ge (l : List Char) : l.length ≤ (encBody l).length := by
  induction l with
  | nil => simp [encBody]
  | cons c t ih =>
    simp only [encBody, List.length_append, List.length_cons]
    have := encChar_len_pos c
    omega

/-! ## The context condition on printed forms -/

theorem notValExt_nil (v : Json) : notValExt v [] = true := by
  cases v <;> rfl

theorem notValExt_items (v : Json) (t : JsonList) (rest : List Char) :
    notValExt v (dumpsItems t ++ (']' :: rest)) = true := by
  cases v <;> cases t <;> rfl

theorem notValExt_fields (v : Json) (t : JsonFields) (rest : List Char) :
    notValExt v (dumpsFields t ++ (cbrace :: rest)) = true := by
  cases v <;> cases t <;> rfl

/-! ## `dict(pairs)` on key-distinct pair lists -/

theorem appendF_fnil : ∀ a : JsonFields, appendF a .fnil = a
  | .fnil => rfl
  | .fcons k v t => by rw [appendF, appendF_fnil t]

theorem appendF_assoc : ∀ a b c : JsonFields,
    appendF (appendF a b) c = appendF a (appendF b c)
  | .fnil, _, _ => rfl
  | .fcons k v t, b, c => by
    simp only [appendF]
    rw [appendF_assoc t b c]

theorem hasKeyF_appendF : ∀ (a b : JsonFields) (k : String),
    hasKeyF (appendF a b) k = (hasKeyF a k || hasKeyF b k)
  | .fnil, b, k => by simp [appendF, hasKeyF]
  | .fcons k0 v0 t, b, k => by
    simp only [appendF, hasKeyF]
    rw [hasKeyF_appendF t b k, Bool.or_assoc]

theorem dictIns_fresh : ∀ (acc : JsonFields) (k : String) (v : Json),
    hasKeyF acc k = false → dictIns acc k v = appendF acc (.fcons k v .fnil)
  | .fnil, _, _, _ => rfl
  | .fcons k0 v0 t, k, v, h => by
    unfold hasKeyF at h
    simp only [Bool.or_eq_false_iff, beq_eq_false_iff_ne, ne_eq] at h
    unfold dictIns appendF
    rw [if_neg h.1, dictIns_fresh t k v h.2]

theorem dictFold_fresh : ∀ (ps acc : JsonFields), uniqF ps = true →
    (∀ k, hasKeyF ps k = true → hasKeyF acc k = false) →
    dictFold acc ps = appendF acc ps
  | .fnil, acc, _, _ => by rw [dictFold, appendF_fnil]
  | .fcons k v t, acc, hu, hdisj => by
    unfold uniqF at hu
    simp only [Bool.and_eq_true, Bool.not_eq_true'] at hu
    unfold dictFold
    rw [dictIns_fresh acc k v (hdisj k (by simp [hasKeyF])),
      dictFold_fresh t (appendF acc (.fcons k v .fnil)) hu.2 ?fr,
      appendF_assoc]
    · rfl
    case fr =>
      intro k2 hk2
      rw [hasKeyF_appendF]
      simp only [Bool.or_eq_false_iff]
      refine ⟨hdisj k2 (by simp [hasKeyF, hk2]), ?_⟩
      simp only [hasKeyF, Bool.or_false]
      rw [beq_eq_false_iff_ne]
      intro he
      rw [he] at hu
      exact absurd hk2 (by simp [hu.1])

theorem dictOf_of_uniq (ps : JsonFields) (h : uniqF ps = true) : dictOf ps = ps := by
  unfold dictOf
  rw [dictFold_fresh ps .fnil h (fun _ _ => rfl)]
  rfl

theorem hasKeyF_dictIns : ∀ (acc : JsonFields) (k : String) (v : Json) (k2 : String),
    hasKeyF (dictIns acc k v) k2 = (hasKeyF acc k2 || (k == k2))
  | .fnil, k, v, k2 => by simp [dictIns, hasKeyF]
  | .fcons k0 v0 t, k, v, k2 => by
    unfold dictIns
    by_cases he : k0 = k
    · rw [if_pos he]
      subst he
      simp only [hasKeyF]
      cases hb : (k0 == k2) <;> simp [hb]
    · rw [if_neg he]
      simp only [hasKeyF]
      rw [hasKeyF_dictIns t k v k2, Bool.or_assoc]

theorem uniqF_dictIns : ∀ (acc : JsonFields) (k : String) (v : Json),
    uniqF acc = true → uniqF (dictIns acc k v) = true
  | .fnil, k, v, _ => by simp [dictIns, uniqF, hasKeyF]
  | .fcons k0 v0 t, k, v, h => by
    unfold uniqF at h
    simp only [Bool.and_eq_true, Bool.not_eq_true'] at h
    unfold dictIns
    by_cases he : k0 = k
    · rw [if_pos he]
      unfold uniqF
      simp [h.1, h.2]
    · rw [if_neg he]
      unfold uniqF
      rw [hasKeyF_dictIns t k v k0]
      simp [h.1, uniqF_dictIns t k v h.2,
        show (k == k0) = false from beq_eq_false_iff_ne.mpr (fun hh => he hh.symm)]

theorem wfFields_dictIns : ∀ (acc : JsonFields) (k : String) (v : Json),
    wfFields acc = true → wfVal v = true → wfFields (dictIns acc k v) = true
  | .fnil, k, v, _, hv => by simp [dictIns, wfFields, hv]
  | .fcons k0 v0 t, k, v, h, hv => by
    unfold wfFields at h
    simp only [Bool.and_eq_true] at h
    unfold dictIns
    by_cases he : k0 = k
    · rw [if_pos he]
      unfold wfFields
      simp [hv, h.2]
    · rw [if_neg he]
      unfold wfFields
      simp [h.1, wfFields_dictIns t k v h.2 hv]

theorem dictFold_wf : ∀ (ps acc : JsonFields), uniqF acc = true →
    wfFields acc = true → wfFields ps = true →
    uniqF (dictFold acc ps) = true ∧ wfFields (dictFold acc ps) = true
  | .fnil, _, h1, h2, _ => ⟨h1, h2⟩
  | .fcons k v t, acc, h1, h2, h3 => by
    unfold wfFields at h3
    simp only [Bool.and_eq_true] at h3
    exact dictFold_wf t (dictIns acc k v) (uniqF_dictIns acc k v h1)
      (wfFields_dictIns acc k v h2 h3.1) h3.2

theorem dictOf_wf (ps : JsonFields) (h : wfFields ps = true) :
    uniqF (dictOf ps) = true ∧ wfFields (dictOf ps) = true :=
  dictFold_wf ps .fnil rfl rfl h

/-! ## First and last characters of printed values -/

theorem natDigits_head_digit (n : Nat) :
    ∃ c r, natDigits n = c :: r ∧ 48 ≤ c.toNat ∧ c.toNat ≤ 57 := by
  by_cases h0 : n = 0
  · subst h0
    exact ⟨digitCh 0, [], natDigits_zero, by decide, by decide⟩
  · obtain ⟨c, r, hcr, h1, h2, _⟩ := natDigits_head_pos n (by omega)
    exact ⟨c, r, hcr, by omega, h2⟩

theorem dumpsVal_head (v : Json) (hw : wfVal v = true) :
    ∃ c r, dumpsVal v = c :: r ∧ 33 ≤ c.toNat ∧ c.toNat ≤ 126 ∧ c.toNat ≠ 96 ∧
      c.toNat ≠ 93 := by
  cases v with
  | null => exact ⟨'n', _, rfl, by decide, by decide, by decide, by decide⟩
  | bool b =>
    cases b with
    | true => exact ⟨'t', _, rfl, by decide, by decide, by decide, by decide⟩
    | false => exact ⟨'f', _, rfl, by decide, by decide, by decide, by decide⟩
  | num n =>
    by_cases hneg : n < 0
    · refine ⟨'-', natDigits n.natAbs, ?_, by decide, by decide, by decide, by decide⟩
      simp [dumpsVal, intRepr, hneg]
    · obtain ⟨c, r, hcr, h1, h2⟩ := natDigits_head_digit n.natAbs
      refine ⟨c, r, ?_, by omega, by omega, by omega, by omega⟩
      rw [show dumpsVal (.num n) = natDigits n.natAbs from by
        simp [dumpsVal, intRepr, hneg], hcr]
  | dec neg ip fp ex =>
    cases neg with
    | true => exact ⟨'-', _, rfl, by decide, by decide, by decide, by decide⟩
    | false =>
      unfold wfVal at hw
      simp only [Bool.and_eq_true] at hw
      rcases ipOk_elim ip hw.1.1.1 with h0 | ⟨c, r, hcr, h1, h2, _⟩
      · subst h0
        exact ⟨'0', _, rfl, by decide, by decide, by decide, by decide⟩
      · subst hcr
        exact ⟨c, _, rfl, by omega, by omega, by omega, by omega⟩
  | nan => exact ⟨'N', _, rfl, by decide, by decide, by decide, by decide⟩
  | inf b =>
    cases b with
    | false => exact ⟨'I', _, rfl, by decide, by decide, by decide, by decide⟩
    | true => exact ⟨'-', _, rfl, by decide, by decide, by decide, by decide⟩
  | str s =>
    exact ⟨dquote, _, rfl, by decide, by decide, by decide, by decide⟩
  | arr l =>
    cases l with
    | nil => exact ⟨'[', _, rfl, by decide, by decide, by decide, by decide⟩
    | cons a t => exact ⟨'[', _, rfl, by decide, by decide, by decide, by decide⟩
  | obj fs =>
    cases fs with
    | fnil => exact ⟨obrace, _, rfl, by decide, by decide, by decide, by decide⟩
    | fcons k a t => exact ⟨obrace, _, rfl, by decide, by decide, by decide, by decide⟩

theorem dumpsVal_last (v : Json) (hw : wfVal v = true) :
    ∃ c, (dumpsVal v).getLast? = some c ∧ 33 ≤ c.toNat ∧ c.toNat ≤ 126 := by
  cases v with
  | null => exact ⟨'l', rfl, by decide, by decide⟩
  | bool b =>
    cases b with
    | true => exact ⟨'e', rfl, by decide, by decide⟩
    | false => exact ⟨'e', rfl, by decide, by decide⟩
  | num n =>
    obtain ⟨r, c, hrc, hd⟩ := natDigits_last_digit n.natAbs
    obtain ⟨h1, h2⟩ := isDigitCh_toNat c hd
    by_cases hneg : n < 0
    · refine ⟨c, ?_, by omega, by omega⟩
      rw [show dumpsVal (.num n) = ('-' :: r) ++ [c] from by
        simp [dumpsVal, intRepr, hneg, hrc]]
      exact List.getLast?_concat _
    · refine ⟨c, ?_, by omega, by omega⟩
      rw [show dumpsVal (.num n) = r ++ [c] from by
        simp [dumpsVal, intRepr, hneg, hrc]]
      exact List.getLast?_concat _
  | dec neg ip fp ex =>
    unfold wfVal at hw
    simp only [Bool.and_eq_true, Bool.or_eq_true, Bool.not_eq_true',
      List.all_eq_true] at hw
    obtain ⟨⟨⟨hip, hfp⟩, hex⟩, hne⟩ := hw
    cases ex with
    | some e =>
      obtain ⟨ech, sgn, digs⟩ := e
      obtain ⟨_, _, hdne, hdigs⟩ := exOk_elim ech sgn digs hex
      rcases List.eq_nil_or_concat digs with h0 | ⟨ds, dl, hds⟩
      · exact absurd h0 hdne
      · rw [List.concat_eq_append] at hds
        have hdl : isDigitCh dl = true := hdigs dl (by rw [hds]; simp)
        obtain ⟨h1, h2⟩ := isDigitCh_toNat dl hdl
        refine ⟨dl, ?_, by omega, by omega⟩
        cases sgn with
        | none =>
          rw [show dumpsVal (.dec neg ip fp (some ⟨ech, none, digs⟩)) =
            ((if neg then ['-'] else []) ++ ip ++
              (if fp.isEmpty then [] else '.' :: fp) ++ (ech :: ds)) ++
              [dl] from by
            simp [dumpsVal, expPartChars, hds]]
          exact List.getLast?_concat _
        | some sg =>
          rw [show dumpsVal (.dec neg ip fp (some ⟨ech, some sg, digs⟩)) =
            ((if neg then ['-'] else []) ++ ip ++
              (if fp.isEmpty then [] else '.' :: fp) ++
              (ech :: sg :: ds)) ++ [dl] from by
            simp [dumpsVal, expPartChars, hds]]
          exact List.getLast?_concat _
    | none =>
      have hfpne : fp ≠ [] := by
        simpa using hne
      rcases List.eq_nil_or_concat fp with h0 | ⟨ds, dl, hds⟩
      · exact absurd h0 hfpne
      · rw [List.concat_eq_append] at hds
        have hdl : isDigitCh dl = true := hfp dl (by rw [hds]; simp)
        obtain ⟨h1, h2⟩ := isDigitCh_toNat dl hdl
        refine ⟨dl, ?_, by omega, by omega⟩
        rw [show dumpsVal (.dec neg ip fp none) =
          ((if neg then ['-'] else []) ++ ip ++ ('.' :: ds)) ++ [dl] from by
          simp [dumpsVal, expPartChars, hds]]
        exact List.getLast?_concat _
  | nan => exact ⟨'N', rfl, by decide, by decide⟩
  | inf b =>
    cases b with
    | false => exact ⟨'y', rfl, by decide, by decide⟩
    | true => exact ⟨'y', rfl, by decide, by decide⟩
  | str s =>
    refine ⟨dquote, ?_, by decide, by decide⟩
    rw [show dumpsVal (.str s) = (dquote :: encBody s.data) ++ [dquote] from by
      simp [dumpsVal, encStrChars]]
    exact List.getLast?_concat _
  | arr l =>
    cases l with
    | nil => exact ⟨']', rfl, by decide, by decide⟩
    | cons a t =>
      refine ⟨']', ?_, by decide, by decide⟩
      rw [show dumpsVal (.arr (.cons a t)) =
        ('[' :: (dumpsVal a ++ dumpsItems t)) ++ [']'] from by
        simp [dumpsVal]]
      exact List.getLast?_concat _
  | obj fs =>
    cases fs with
    | fnil => exact ⟨cbrace, rfl, by decide, by decide⟩
    | fcons k a t =>
      refine ⟨cbrace, ?_, by decide, by decide⟩
      rw [show dumpsVal (.obj (.fcons k a t)) =
        (obrace :: (encStrChars k ++ ':' :: ' ' :: dumpsVal a ++
          dumpsFields t)) ++ [cbrace] from by
        simp [dumpsVal]]
      exact List.getLast?_concat _

theorem dumps_defence (v : Json) (hw : wfVal v = true) :
    defenceChars (dumpsVal v) = dumpsVal v := by
  obtain ⟨c, r, hcr, hc1, hc2, hc3, hc4⟩ := dumpsVal_head v hw
  obtain ⟨cl, hcl, hl1, hl2⟩ := dumpsVal_last v hw
  have hstrip : pyStripChars (dumpsVal v) = dumpsVal v := by
    refine pyStrip_id _ (fun c' hc' => ?_) (fun cl' hcl' => ?_)
    · rw [hcr] at hc'
      have hcc : c = c' := by simpa using hc'
      exact hcc ▸ not_pySpace_of_toNat c hc1 hc2
    · rw [hcl] at hcl'
      have hcc : cl = cl' := by simpa using hcl'
      exact hcc ▸ not_pySpace_of_toNat cl hl1 hl2
  have hticks : startsWithTicks (pyStripChars (dumpsVal v)) = false := by
    rw [hstrip]
    exact startsWithTicks_false _ c (by rw [hcr]; rfl)
      (char_beq_false c btick (show c.toNat ≠ 96 from hc3))
  rw [defence_no_ticks _ hticks, hstrip]

/-! ## Well-formedness of scanned numbers -/

theorem all_takeWhile (p : Char → Bool) (l : List Char) :
    (l.takeWhile p).all p = true := by
  rw [List.all_eq_true]
  intro x hx
  exact List.mem_takeWhile_imp hx

theorem scanExpPart_wf (after : List Char) (pos : Nat) :
    exOk (scanExpPart after pos).1 = true := by
  match after with
  | [] => rfl
  | e :: r =>
    by_cases he : (e == 'e' || e == 'E') = true
    · match r with
      | [] => simp [scanExpPart, he, exOk]
      | s :: r2 =>
        by_cases hs : (s == '+' || s == '-') = true
        · by_cases hds : (r2.takeWhile isDigitCh).isEmpty = true
          · simp [scanExpPart, he, hs, hds, exOk]
          · simp only [scanExpPart, he, hs, hds, if_true, if_false,
              Bool.false_eq_true]
            unfold exOk
            simp [he, hs, hds, all_takeWhile]
        · by_cases hds : ((s :: r2).takeWhile isDigitCh).isEmpty = true
          · simp [scanExpPart, he, hs, hds, exOk]
          · simp only [scanExpPart, he, hs, hds, if_true, if_false,
              Bool.false_eq_true]
            unfold exOk
            simp [he, hds, all_takeWhile]
    · simp [scanExpPart, he, exOk]

theorem scanNumTail_wf (neg : Bool) (ip after : List Char) (pos : Nat)
    (hip : ipOk ip = true) (v : Json) (r : List Char) (p : Nat)
    (h : scanNumTail neg ip after pos = some (v, r, p)) : wfVal v = true := by
  have key : ∀ (fp : List Char) (after2 pos2 : Nat → Nat) (a2 : List Char)
      (p2 : Nat), fp.all isDigitCh = true →
      (if fp.isEmpty && (scanExpPart a2 p2).1.isNone then
        some (Json.num (if neg then -(digitsVal ip : Int) else
          (digitsVal ip : Int)), a2, p2)
      else some (.dec neg ip fp (scanExpPart a2 p2).1,
        (scanExpPart a2 p2).2.1, (scanExpPart a2 p2).2.2)) = some (v, r, p) →
      wfVal v = true := by
    intro fp _ _ a2 p2 hall heq
    by_cases hc : (fp.isEmpty && (scanExpPart a2 p2).1.isNone) = true
    · rw [if_pos hc] at heq
      simp only [Option.some.injEq, Prod.mk.injEq] at heq
      rw [← heq.1]
      rfl
    · rw [if_neg hc] at heq
      simp only [Option.some.injEq, Prod.mk.injEq] at heq
      rw [← heq.1]
      unfold wfVal
      simp only [Bool.and_eq_true]
      refine ⟨⟨⟨hip, hall⟩, scanExpPart_wf a2 p2⟩, ?_⟩
      simp only [Bool.and_eq_true, not_and] at hc
      cases hfe : fp.isEmpty with
      | false => simp [hfe]
      | true =>
        have h2 : (scanExpPart a2 p2).1.isNone = false := by
          cases hi : (scanExpPart a2 p2).1.isNone
          · rfl
          · exact absurd hi (hc hfe)
        simp [hfe, h2]
  simp only [scanNumTail] at h
  cases after with
  | nil => exact key [] id id _ _ rfl h
  | cons d r2 =>
    by_cases hd : (d == '.') = true
    · by_cases he : (r2.takeWhile isDigitCh).isEmpty = true
      · exact key [] id id _ _ rfl (by simpa [hd, he] using h)
      · exact key (r2.takeWhile isDigitCh) id id _ _ (all_takeWhile _ _)
          (by simpa [hd, he] using h)
    · exact key [] id id _ _ rfl (by simpa [hd] using h)

theorem ipOk_head (c : Char) (ds : List Char) (hd : isDigitCh c = true)
    (h0 : (c == '0') = false) (hds : ds.all isDigitCh = true) :
    ipOk (c :: ds) = true := by
  obtain ⟨h1, h2⟩ := isDigitCh_toNat c hd
  have h48 : c.toNat ≠ 48 := by
    intro hh
    have hc0 : c = '0' := by
      rw [← Char.ofNat_toNat c, hh]
    rw [hc0] at h0
    simp at h0
  unfold ipOk
  simp only [Bool.or_eq_true, Bool.and_eq_true, decide_eq_true_eq, h0,
    Bool.false_eq_true, false_and, false_or, hds, and_true]
  omega

theorem scanNumber_wf (cs : List Char) (pos : Nat) (v : Json) (r : List Char)
    (p : Nat) (h : scanNumber cs pos = some (v, r, p)) : wfVal v = true := by
  simp only [scanNumber] at h
  cases cs with
  | nil => exact absurd h (by simp)
  | cons c0 r0 =>
    by_cases hneg : (c0 == '-') = true
    · simp only [hneg, if_true] at h
      cases r0 with
      | nil => exact absurd h (by simp at h)
      | cons c rr =>
        by_cases hc0 : (c == '0') = true
        · simp only [hc0, if_true] at h
          exact scanNumTail_wf _ _ _ _ (by decide) _ _ _ h
        · by_cases hdc : isDigitCh c = true
          · simp only [hc0, hdc, Bool.false_eq_true, if_false, if_true] at h
            exact scanNumTail_wf _ _ _ _
              (ipOk_head c _ hdc (Bool.eq_false_iff.mpr hc0)
                (all_takeWhile _ _)) _ _ _ h
          · simp [hc0, hdc] at h
    · simp only [hneg, Bool.false_eq_true, if_false] at h
      by_cases hc0 : (c0 == '0') = true
      · simp only [hc0, if_true] at h
        exact scanNumTail_wf _ _ _ _ (by decide) _ _ _ h
      · by_cases hdc : isDigitCh c0 = true
        · simp only [hc0, hdc, Bool.false_eq_true, if_false, if_true] at h
          exact scanNumTail_wf _ _ _ _
            (ipOk_head c0 _ hdc (Bool.eq_false_iff.mpr hc0)
              (all_takeWhile _ _)) _ _ _ h
        · simp [hc0, hdc] at h

/-! ## Every value the scanner returns is well formed -/

theorem scan_wf : ∀ f : Nat,
    (∀ cs pos v r p, scanOnce f cs pos = .ok (v, r, p) → wfVal v = true) ∧
    (∀ cs pos v r p, scanArrStart f cs pos = .ok (v, r, p) → wfVal v = true) ∧
    (∀ cs pos vs r p, scanArrElems f cs pos = .ok (vs, r, p) →
      wfList vs = true) ∧
    (∀ cs pos v r p, scanObjStart f cs pos = .ok (v, r, p) → wfVal v = true) ∧
    (∀ cs pos ps r p, scanObjElems f cs pos = .ok (ps, r, p) →
      wfFields ps = true) := by
  intro f
  induction f with
  | zero =>
    refine ⟨fun cs pos v r p h => ?_, fun cs pos v r p h => ?_,
      fun cs pos vs r p h => ?_, fun cs pos v r p h => ?_,
      fun cs pos ps r p h => ?_⟩
    · simp [scanOnce] at h
    · simp [scanArrStart] at h
    · simp [scanArrElems] at h
    · simp [scanObjStart] at h
    · simp [scanObjElems] at h
  | succ g ih =>
    obtain ⟨ihO, ihAS, ihAE, ihOS, ihOE⟩ := ih
    refine ⟨fun cs pos v r p h => ?_, fun cs pos v r p h => ?_,
      fun cs pos vs r p h => ?_, fun cs pos v r p h => ?_,
      fun cs pos ps r p h => ?_⟩
    · -- scanOnce
      cases cs with
      | nil => simp [scanOnce] at h
      | cons c rest =>
        simp only [scanOnce] at h
        by_cases h1 : (c == dquote) = true
        · rw [if_pos h1] at h
          cases hss : scanStringF (rest.length + 1) rest (pos + 1) pos with
          | error e => rw [hss] at h; exact Except.noConfusion h
          | ok t =>
            obtain ⟨content, r2, p2⟩ := t
            rw [hss] at h
            simp only [Except.ok.injEq, Prod.mk.injEq] at h
            rw [← h.1]
            rfl
        · rw [if_neg h1] at h
          by_cases h2 : (c == obrace) = true
          · rw [if_pos h2] at h
            exact ihOS _ _ _ _ _ h
          · rw [if_neg h2] at h
            by_cases h3 : (c == '[') = true
            · rw [if_pos h3] at h
              exact ihAS _ _ _ _ _ h
            · rw [if_neg h3] at h
              by_cases h4 : (c == 'n') = true
              · rw [if_pos h4] at h
                split at h
                · simp only [Except.ok.injEq, Prod.mk.injEq] at h
                  rw [← h.1]
                  rfl
                · exact Except.noConfusion h
              · rw [if_neg h4] at h
                by_cases h5 : (c == 't') = true
                · rw [if_pos h5] at h
                  split at h
                  · simp only [Except.ok.injEq, Prod.mk.injEq] at h
                    rw [← h.1]
                    rfl
                  · exact Except.noConfusion h
                · rw [if_neg h5] at h
                  by_cases h6 : (c == 'f') = true
                  · rw [if_pos h6] at h
                    split at h
                    · simp only [Except.ok.injEq, Prod.mk.injEq] at h
                      rw [← h.1]
                      rfl
                    · exact Except.noConfusion h
                  · rw [if_neg h6] at h
                    cases hsn : scanNumber (c :: rest) pos with
                    | some t =>
                      obtain ⟨v0, r0, p0⟩ := t
                      rw [hsn] at h
                      simp only [Except.ok.injEq, Prod.mk.injEq] at h
                      rw [← h.1]
                      exact scanNumber_wf _ _ _ _ _ hsn
                    | none =>
                      rw [hsn] at h
                      simp only [] at h
                      by_cases h7 : (c == 'N') = true
                      · rw [if_pos h7] at h
                        split at h
                        · simp only [Except.ok.injEq, Prod.mk.injEq] at h
                          rw [← h.1]
                          rfl
                        · exact Except.noConfusion h
                      · rw [if_neg h7] at h
                        by_cases h8 : (c == 'I') = true
                        · rw [if_pos h8] at h
                          split at h
                          · simp only [Except.ok.injEq, Prod.mk.injEq] at h
                            rw [← h.1]
                            rfl
                          · exact Except.noConfusion h
                        · rw [if_neg h8] at h
                          by_cases h9 : (c == '-') = true
                          · rw [if_pos h9] at h
                            split at h
                            · simp only [Except.ok.injEq, Prod.mk.injEq] at h
                              rw [← h.1]
                              rfl
                            · exact Except.noConfusion h
                          · rw [if_neg h9] at h
                            exact Except.noConfusion h
    · -- scanArrStart
      simp only [scanArrStart] at h
      cases hsw : (skipWs cs pos).1 with
      | nil =>
        rw [hsw] at h
        simp only [] at h
        cases hae : scanArrElems g [] (skipWs cs pos).2 with
        | error e => rw [hae] at h; exact Except.noConfusion h
        | ok t =>
          obtain ⟨vs, r2, p2⟩ := t
          rw [hae] at h
          simp only [Except.ok.injEq, Prod.mk.injEq] at h
          rw [← h.1]
          exact ihAE _ _ _ _ _ hae
      | cons c rr =>
        rw [hsw] at h
        simp only [] at h
        by_cases hc : (c == ']') = true
        · rw [if_pos hc] at h
          simp only [Except.ok.injEq, Prod.mk.injEq] at h
          rw [← h.1]
          rfl
        · rw [if_neg hc] at h
          cases hae : scanArrElems g (c :: rr) (skipWs cs pos).2 with
          | error e => rw [hae] at h; exact Except.noConfusion h
          | ok t =>
            obtain ⟨vs, r2, p2⟩ := t
            rw [hae] at h
            simp only [Except.ok.injEq, Prod.mk.injEq] at h
            rw [← h.1]
            exact ihAE _ _ _ _ _ hae
    · -- scanArrElems
      simp only [scanArrElems] at h
      cases hso : scanOnce g cs pos with
      | error e => rw [hso] at h; exact Except.noConfusion h
      | ok t =>
        obtain ⟨v0, cs2, pos2⟩ := t
        rw [hso] at h
        have hwv0 : wfVal v0 = true := ihO _ _ _ _ _ hso
        simp only [] at h
        cases hsw : (skipWs cs2 pos2).1 with
        | nil => rw [hsw] at h; exact Except.noConfusion h
        | cons c rr =>
          rw [hsw] at h
          simp only [] at h
          by_cases hc : (c == ']') = true
          · rw [if_pos hc] at h
            simp only [Except.ok.injEq, Prod.mk.injEq] at h
            rw [← h.1]
            simp [wfList, hwv0]
          · rw [if_neg hc] at h
            by_cases hc2 : (c == ',') = true
            · rw [if_pos hc2] at h
              cases hae : scanArrElems g (skipWs rr ((skipWs cs2 pos2).2 + 1)).1
                  (skipWs rr ((skipWs cs2 pos2).2 + 1)).2 with
              | error e => rw [hae] at h; exact Except.noConfusion h
              | ok t2 =>
                obtain ⟨vs0, r2, p2⟩ := t2
                rw [hae] at h
                simp only [Except.ok.injEq, Prod.mk.injEq] at h
                rw [← h.1]
                simp [wfList, hwv0, ihAE _ _ _ _ _ hae]
            · rw [if_neg hc2] at h
              exact Except.noConfusion h
    · -- scanObjStart
      simp only [scanObjStart] at h
      cases hsw : (skipWs cs pos).1 with
      | nil => rw [hsw] at h; exact Except.noConfusion h
      | cons c rr =>
        rw [hsw] at h
        simp only [] at h
        by_cases hc : (c == cbrace) = true
        · rw [if_pos hc] at h
          simp only [Except.ok.injEq, Prod.mk.injEq] at h
          rw [← h.1]
          rfl
        · rw [if_neg hc] at h
          by_cases hc2 : (c == dquote) = true
          · rw [if_pos hc2] at h
            cases hoe : scanObjElems g rr ((skipWs cs pos).2 + 1) with
            | error e => rw [hoe] at h; exact Except.noConfusion h
            | ok t =>
              obtain ⟨ps0, r2, p2⟩ := t
              rw [hoe] at h
              simp only [Except.ok.injEq, Prod.mk.injEq] at h
              rw [← h.1]
              have hps0 : wfFields ps0 = true := ihOE _ _ _ _ _ hoe
              obtain ⟨hu, hwf⟩ := dictOf_wf ps0 hps0
              unfold wfVal
              simp [hu, hwf]
          · rw [if_neg hc2] at h
            exact Except.noConfusion h
    · -- scanObjElems
      simp only [scanObjElems] at h
      cases hss : scanStringF (cs.length + 1) cs pos (pos - 1) with
      | error e => rw [hss] at h; exact Except.noConfusion h
      | ok t =>
        obtain ⟨kcs, cs2, pos2⟩ := t
        rw [hss] at h
        simp only [] at h
        cases hsw : (skipWs cs2 pos2).1 with
        | nil => rw [hsw] at h; exact Except.noConfusion h
        | cons c3 r3 =>
          rw [hsw] at h
          simp only [] at h
          by_cases hc3 : (c3 != ':') = true
          · rw [if_pos hc3] at h
            exact Except.noConfusion h
          · rw [if_neg hc3] at h
            cases hso : scanOnce g (skipWs r3 ((skipWs cs2 pos2).2 + 1)).1
                (skipWs r3 ((skipWs cs2 pos2).2 + 1)).2 with
            | error e => rw [hso] at h; exact Except.noConfusion h
            | ok t2 =>
              obtain ⟨v0, cs5, pos5⟩ := t2
              rw [hso] at h
              have hwv0 : wfVal v0 = true := ihO _ _ _ _ _ hso
              simp only [] at h
              cases hsw3 : (skipWs cs5 pos5).1 with
              | nil => rw [hsw3] at h; exact Except.noConfusion h
              | cons c6 r6 =>
                rw [hsw3] at h
                simp only [] at h
                by_cases hc6 : (c6 == cbrace) = true
                · rw [if_pos hc6] at h
                  simp only [Except.ok.injEq, Prod.mk.injEq] at h
                  rw [← h.1]
                  unfold wfFields
                  simp [hwv0, wfFields]
                · rw [if_neg hc6] at h
                  by_cases hc62 : (c6 == ',') = true
                  · rw [if_pos hc62] at h
                    cases hsw4 : (skipWs r6 ((skipWs cs5 pos5).2 + 1)).1 with
                    | nil => rw [hsw4] at h; exact Except.noConfusion h
                    | cons c7 r7 =>
                      rw [hsw4] at h
                      simp only [] at h
                      by_cases hc7 : (c7 == dquote) = true
                      · rw [if_pos hc7] at h
                        cases hoe : scanObjElems g r7
                            ((skipWs r6 ((skipWs cs5 pos5).2 + 1)).2 + 1) with
                        | error e => rw [hoe] at h; exact Except.noConfusion h
                        | ok t3 =>
                          obtain ⟨ps0, r2, p2⟩ := t3
                          rw [hoe] at h
                          simp only [Except.ok.injEq, Prod.mk.injEq] at h
                          rw [← h.1]
                          unfold wfFields
                          simp [hwv0, ihOE _ _ _ _ _ hoe]
                      · rw [if_neg hc7] at h
                        exact Except.noConfusion h
                  · rw [if_neg hc62] at h
                    exact Except.noConfusion h

theorem loads_wf (cs : List Char) (v : Json) (h : loadsChars cs = .ok v) :
    wfVal v = true := by
  have hbody : ∀ cs2, loadsBody cs2 = .ok v → wfVal v = true := by
    intro cs2 hb
    simp only [loadsBody] at hb
    cases hso : scanOnce (2 * cs2.length + 2) (skipWs cs2 0).1
        (skipWs cs2 0).2 with
    | error e => rw [hso] at hb; exact Except.noConfusion hb
    | ok t =>
      obtain ⟨v0, rest, pos2⟩ := t
      rw [hso] at hb
      simp only [] at hb
      cases hsw : (skipWs rest pos2).1 with
      | nil =>
        rw [hsw] at hb
        simp only [Except.ok.injEq] at hb
        rw [← hb]
        exact (scan_wf _).1 _ _ _ _ _ hso
      | cons c rr => rw [hsw] at hb; exact Except.noConfusion hb
  cases cs with
  | nil => exact hbody [] (by simpa [loadsChars] using h)
  | cons c rest =>
    simp only [loadsChars] at h
    by_cases hb : (c == Char.ofNat 0xfeff) = true
    · rw [if_pos hb] at h
      exact Except.noConfusion h
    · rw [if_neg hb] at h
      exact hbody _ h

/-! ## Round trip: the scanner re-reads every printed well-formed value -/

mutual

theorem scanOnceRT (v : Json) (f : Nat) (rest : List Char) (pos : Nat)
    (hf : fuelVal v ≤ f) (hw : wfVal v = true)
    (hnx : notValExt v rest = true) :
    scanOnce f (dumpsVal v ++ rest) pos =
      .ok (v, rest, pos + (dumpsVal v).length) := by
  cases v with
  | null =>
    obtain ⟨g, rfl⟩ : ∃ g, f = g + 1 := ⟨f - 1, by
      simp only [fuelVal] at hf; omega⟩
    rfl
  | bool b =>
    obtain ⟨g, rfl⟩ : ∃ g, f = g + 1 := ⟨f - 1, by
      simp only [fuelVal] at hf; omega⟩
    cases b with
    | true => rfl
    | false => rfl
  | nan =>
    obtain ⟨g, rfl⟩ : ∃ g, f = g + 1 := ⟨f - 1, by
      simp only [fuelVal] at hf; omega⟩
    rfl
  | inf b =>
    obtain ⟨g, rfl⟩ : ∃ g, f = g + 1 := ⟨f - 1, by
      simp only [fuelVal] at hf; omega⟩
    cases b with
    | true => rfl
    | false => rfl
  | num n =>
    obtain ⟨g, rfl⟩ : ∃ g, f = g + 1 := ⟨f - 1, by
      simp only [fuelVal] at hf; omega⟩
    have hsn := scanNumber_intRepr n rest pos (by simpa [notValExt] using hnx)
    have hh : ∃ c r2, intRepr n = c :: r2 ∧ 45 ≤ c.toNat ∧ c.toNat ≤ 57 := by
      by_cases hneg : n < 0
      · exact ⟨'-', natDigits n.natAbs, by simp [intRepr, hneg], by decide,
          by decide⟩
      · obtain ⟨c, r2, hcr, h1, h2⟩ := natDigits_head_digit n.natAbs
        exact ⟨c, r2, by simp [intRepr, hneg, hcr], by omega, by omega⟩
    obtain ⟨c, r2, hcr, hb1, hb2⟩ := hh
    show scanOnce (g + 1) (dumpsVal (.num n) ++ rest) pos = _
    simp only [dumpsVal]
    rw [show intRepr n ++ rest = c :: (r2 ++ rest) from by rw [hcr]; rfl]
    simp only [scanOnce,
      char_beq_false c dquote (show c.toNat ≠ 34 by omega),
      Bool.false_eq_true, if_false,
      char_beq_false c obrace (show c.toNat ≠ 123 by omega),
      char_beq_false c '[' (show c.toNat ≠ 91 by omega),
      char_beq_false c 'n' (show c.toNat ≠ 110 by omega),
      char_beq_false c 't' (show c.toNat ≠ 116 by omega),
      char_beq_false c 'f' (show c.toNat ≠ 102 by omega)]
    rw [show c :: (r2 ++ rest) = intRepr n ++ rest from by rw [hcr]; rfl, hsn]
  | dec neg ip fp ex =>
    obtain ⟨g, rfl⟩ : ∃ g, f = g + 1 := ⟨f - 1, by
      simp only [fuelVal] at hf; omega⟩
    have hsn := scanNumber_decRepr neg ip fp ex rest pos hw
      (by simpa [notValExt] using hnx)
    have hh : ∃ c r2, dumpsVal (.dec neg ip fp ex) = c :: r2 ∧
        45 ≤ c.toNat ∧ c.toNat ≤ 57 := by
      cases neg with
      | true => exact ⟨'-', _, rfl, by decide, by decide⟩
      | false =>
        have hip : ipOk ip = true := by
          unfold wfVal at hw
          simp only [Bool.and_eq_true] at hw
          exact hw.1.1.1
        rcases ipOk_elim ip hip with h0 | ⟨c, r2, hcr2, h1, h2, _⟩
        · subst h0
          exact ⟨'0', _, rfl, by decide, by decide⟩
        · subst hcr2
          exact ⟨c, _, rfl, by omega, by omega⟩
    obtain ⟨c, r2, hcr, hb1, hb2⟩ := hh
    show scanOnce (g + 1) (dumpsVal (.dec neg ip fp ex) ++ rest) pos = _
    rw [show dumpsVal (.dec neg ip fp ex) ++ rest = c :: (r2 ++ rest) from by
      rw [hcr]; rfl]
    simp only [scanOnce,
      char_beq_false c dquote (show c.toNat ≠ 34 by omega),
      Bool.false_eq_true, if_false,
      char_beq_false c obrace (show c.toNat ≠ 123 by omega),
      char_beq_false c '[' (show c.toNat ≠ 91 by omega),
      char_beq_false c 'n' (show c.toNat ≠ 110 by omega),
      char_beq_false c 't' (show c.toNat ≠ 116 by omega),
      char_beq_false c 'f' (show c.toNat ≠ 102 by omega)]
    rw [show c :: (r2 ++ rest) = dumpsVal (.dec neg ip fp ex) ++ rest from by
      rw [hcr]; rfl, hsn]
  | str s =>
    obtain ⟨g, rfl⟩ : ∃ g, f = g + 1 := ⟨f - 1, by
      simp only [fuelVal] at hf; omega⟩
    show scanOnce (g + 1) (dumpsVal (.str s) ++ rest) pos = _
    rw [show dumpsVal (.str s) ++ rest =
      dquote :: (encBody s.data ++ (dquote :: rest)) from by
      simp [dumpsVal, encStrChars]]
    simp only [scanOnce, beq_self_eq_true, if_true]
    rw [scanString_enc s.data
      ((encBody s.data ++ (dquote :: rest)).length + 1) rest (pos + 1) pos (by
        have := encBody_length_ge s.data
        simp only [List.length_append, List.length_cons]
        omega)]
    simp only [Except.ok.injEq, Prod.mk.injEq, true_and,
      dumpsVal, encStrChars, List.length_cons, List.length_append, List.length_nil]
    omega
  | arr l =>
    cases l with
    | nil =>
      obtain ⟨g, rfl⟩ : ∃ g, f = g + 2 := ⟨f - 2, by
        simp only [fuelVal, fuelL] at hf; omega⟩
      rfl
    | cons w t =>
      obtain ⟨g, rfl⟩ : ∃ g, f = g + 2 := ⟨f - 2, by
        simp only [fuelVal, fuelL] at hf; omega⟩
      have hg : 1 + fuelVal w + fuelL t ≤ g := by
        simp only [fuelVal, fuelL] at hf
        omega
      have hws : wfVal w = true ∧ wfList t = true := by
        simp only [wfVal, wfList, Bool.and_eq_true] at hw
        exact hw
      show scanOnce (g + 2) (dumpsVal (.arr (.cons w t)) ++ rest) pos = _
      rw [show dumpsVal (.arr (.cons w t)) ++ rest =
        '[' :: (dumpsVal w ++ (dumpsItems t ++ (']' :: rest))) from by
        simp [dumpsVal]]
      simp only [scanOnce,
        show (('[' : Char) == dquote) = false from by decide,
        Bool.false_eq_true, if_false,
        show (('[' : Char) == obrace) = false from by decide,
        beq_self_eq_true, if_true]
      obtain ⟨c, r2, hcr, hc1, hc2, _, hc93⟩ := dumpsVal_head w hws.1
      simp only [scanArrStart]
      rw [show dumpsVal w ++ (dumpsItems t ++ (']' :: rest)) =
        c :: (r2 ++ (dumpsItems t ++ (']' :: rest))) from by rw [hcr]; rfl,
        skipWs_no c _ (pos + 1) (not_jsonWs_of_toNat c hc1 hc2)]
      simp only [char_beq_false c ']' (show c.toNat ≠ 93 from hc93),
        Bool.false_eq_true, if_false]
      rw [show c :: (r2 ++ (dumpsItems t ++ (']' :: rest))) =
        dumpsVal w ++ (dumpsItems t ++ (']' :: rest)) from by rw [hcr]; rfl,
        scanElemsRT w t g rest (pos + 1) hg hws.1 hws.2]
      simp only [Except.ok.injEq, Prod.mk.injEq, true_and,
        dumpsVal, List.length_cons, List.length_append, List.length_nil]
      omega
  | obj fs =>
    cases fs with
    | fnil =>
      obtain ⟨g, rfl⟩ : ∃ g, f = g + 2 := ⟨f - 2, by
        simp only [fuelVal, fuelF] at hf; omega⟩
      rfl
    | fcons k w t =>
      obtain ⟨g, rfl⟩ : ∃ g, f = g + 2 := ⟨f - 2, by
        simp only [fuelVal, fuelF] at hf; omega⟩
      have hg : 1 + fuelVal w + fuelF t ≤ g := by
        simp only [fuelVal, fuelF] at hf
        omega
      have hu : uniqF (.fcons k w t) = true := by
        simp only [wfVal, Bool.and_eq_true] at hw
        exact hw.1
      have hwv : wfVal w = true := by
        simp only [wfVal, wfFields, Bool.and_eq_true] at hw
        exact hw.2.1
      have hwt : wfFields t = true := by
        simp only [wfVal, wfFields, Bool.and_eq_true] at hw
        exact hw.2.2
      show scanOnce (g + 2) (dumpsVal (.obj (.fcons k w t)) ++ rest) pos = _
      rw [show dumpsVal (.obj (.fcons k w t)) ++ rest =
        obrace :: (dquote :: (encBody k.data ++ (dquote :: ':' :: ' ' ::
          (dumpsVal w ++ (dumpsFields t ++ (cbrace :: rest)))))) from by
        simp [dumpsVal, encStrChars]]
      simp only [scanOnce,
        show ((obrace : Char) == dquote) = false from by decide,
        Bool.false_eq_true, if_false, beq_self_eq_true, if_true]
      simp only [scanObjStart, skipWs_no dquote _ (pos + 1) (by decide),
        show ((dquote : Char) == cbrace) = false from by decide,
        Bool.false_eq_true, if_false, beq_self_eq_true, if_true]
      rw [scanFieldsRT k w t g rest (pos + 1 + 1) hg hwv hwt]
      simp only []
      rw [dictOf_of_uniq _ hu]
      simp only [Except.ok.injEq, Prod.mk.injEq, true_and,
        dumpsVal, encStrChars, List.length_cons, List.length_append, List.length_nil]
      omega
termination_by sizeOf v

theorem scanElemsRT (v : Json) (t : JsonList) (f : Nat) (rest : List Char)
    (pos : Nat) (hf : 1 + fuelVal v + fuelL t ≤ f) (hw : wfVal v = true)
    (hwt : wfList t = true) :
    scanArrElems f (dumpsVal v ++ (dumpsItems t ++ (']' :: rest))) pos =
      .ok (.cons v t, rest,
        pos + ((dumpsVal v).length + ((dumpsItems t).length + 1))) := by
  obtain ⟨g, rfl⟩ : ∃ g, f = g + 1 := ⟨f - 1, by omega⟩
  have hfv : fuelVal v ≤ g := by omega
  simp only [scanArrElems]
  rw [scanOnceRT v g (dumpsItems t ++ (']' :: rest)) pos hfv hw
    (notValExt_items v t rest)]
  simp only []
  cases t with
  | nil =>
    simp only [dumpsItems, List.nil_append]
    rw [skipWs_no ']' rest _ (by decide)]
    simp only [beq_self_eq_true, if_true, Except.ok.injEq, Prod.mk.injEq,
      true_and, dumpsItems, List.length_nil]
    omega
  | cons w t2 =>
    have hww : wfVal w = true := by
      simp only [wfList, Bool.and_eq_true] at hwt
      exact hwt.1
    have hwt2 : wfList t2 = true := by
      simp only [wfList, Bool.and_eq_true] at hwt
      exact hwt.2
    have hg2 : 1 + fuelVal w + fuelL t2 ≤ g := by
      simp only [fuelL] at hf
      omega
    obtain ⟨c, r2, hcr, hc1, hc2, _, _⟩ := dumpsVal_head w hww
    rw [show dumpsItems (.cons w t2) ++ (']' :: rest) =
      ',' :: ' ' :: (dumpsVal w ++ (dumpsItems t2 ++ (']' :: rest))) from by
      simp [dumpsItems]]
    rw [skipWs_no ',' _ _ (by decide)]
    simp only [show ((',' : Char) == ']') = false from by decide,
      Bool.false_eq_true, if_false, beq_self_eq_true, if_true]
    rw [skipWs_space]
    rw [show dumpsVal w ++ (dumpsItems t2 ++ (']' :: rest)) =
      c :: (r2 ++ (dumpsItems t2 ++ (']' :: rest))) from by rw [hcr]; rfl,
      skipWs_no c _ _ (not_jsonWs_of_toNat c hc1 hc2)]
    simp only []
    rw [show c :: (r2 ++ (dumpsItems t2 ++ (']' :: rest))) =
      dumpsVal w ++ (dumpsItems t2 ++ (']' :: rest)) from by rw [hcr]; rfl,
      scanElemsRT w t2 g rest _ hg2 hww hwt2]
    simp only [Except.ok.injEq, Prod.mk.injEq, true_and,
      dumpsItems, List.length_cons, List.length_append, List.length_nil]
    omega
termination_by 1 + sizeOf v + sizeOf t

theorem scanFieldsRT (k : String) (v : Json) (t : JsonFields) (f : Nat)
    (rest : List Char) (pos : Nat) (hf : 1 + fuelVal v + fuelF t ≤ f)
    (hw : wfVal v = true) (hwt : wfFields t = true) :
    scanObjElems f
      (encBody k.data ++ (dquote :: ':' :: ' ' ::
        (dumpsVal v ++ (dumpsFields t ++ (cbrace :: rest))))) pos =
      .ok (.fcons k v t, rest,
        pos + ((encBody k.data).length + 3 +
          ((dumpsVal v).length + ((dumpsFields t).length + 1)))) := by
  obtain ⟨g, rfl⟩ : ∃ g, f = g + 1 := ⟨f - 1, by omega⟩
  have hfv : fuelVal v ≤ g := by omega
  simp only [scanObjElems]
  rw [scanString_enc k.data _ _ pos (pos - 1) (by
    have := encBody_length_ge k.data
    simp only [List.length_append, List.length_cons]
    omega)]
  simp only []
  rw [skipWs_no ':' _ _ (by decide)]
  simp only [show ((':' : Char) != ':') = false from by decide,
    Bool.false_eq_true, if_false]
  rw [skipWs_space]
  obtain ⟨c, r2, hcr, hc1, hc2, _, _⟩ := dumpsVal_head v hw
  rw [show dumpsVal v ++ (dumpsFields t ++ (cbrace :: rest)) =
    c :: (r2 ++ (dumpsFields t ++ (cbrace :: rest))) from by rw [hcr]; rfl,
    skipWs_no c _ _ (not_jsonWs_of_toNat c hc1 hc2)]
  simp only []
  rw [show c :: (r2 ++ (dumpsFields t ++ (cbrace :: rest))) =
    dumpsVal v ++ (dumpsFields t ++ (cbrace :: rest)) from by rw [hcr]; rfl,
    scanOnceRT v g _ _ hfv hw (notValExt_fields v t rest)]
  simp only []
  cases t with
  | fnil =>
    simp only [dumpsFields, List.nil_append]
    rw [skipWs_no cbrace rest _ (by decide)]
    simp only [beq_self_eq_true, if_true, Except.ok.injEq, Prod.mk.injEq,
      true_and, dumpsFields, List.length_nil]
    omega
  | fcons k2 w2 t2 =>
    have hww : wfVal w2 = true := by
      simp only [wfFields, Bool.and_eq_true] at hwt
      exact hwt.1
    have hwt2 : wfFields t2 = true := by
      simp only [wfFields, Bool.and_eq_true] at hwt
      exact hwt.2
    have hg2 : 1 + fuelVal w2 + fuelF t2 ≤ g := by
      simp only [fuelF] at hf
      omega
    rw [show dumpsFields (.fcons k2 w2 t2) ++ (cbrace :: rest) =
      ',' :: ' ' :: (dquote :: (encBody k2.data ++ (dquote :: ':' :: ' ' ::
        (dumpsVal w2 ++ (dumpsFields t2 ++ (cbrace :: rest)))))) from by
      simp [dumpsFields, encStrChars]]
    rw [skipWs_no ',' _ _ (by decide)]
    simp only [show ((',' : Char) == cbrace) = false from by decide,
      Bool.false_eq_true, if_false, beq_self_eq_true, if_true]
    rw [skipWs_space, skipWs_no dquote _ _ (by decide)]
    simp only [beq_self_eq_true, if_true]
    rw [scanFieldsRT k2 w2 t2 g rest _ hg2 hww hwt2]
    simp only [Except.ok.injEq, Prod.mk.injEq, true_and,
      dumpsFields, encStrChars, List.length_cons, List.length_append, List.length_nil]
    omega
termination_by 1 + sizeOf v + sizeOf t

end

/-! ## Fuel bounds and the full decoder round trip -/

mutual

theorem fuelVal_le (v : Json) (hw : wfVal v = true) :
    fuelVal v ≤ 2 * (dumpsVal v).length := by
  cases v with
  | arr l =>
    cases l with
    | nil => simp [fuelVal, fuelL, dumpsVal]
    | cons w t =>
      have hws : wfVal w = true ∧ wfList t = true := by
        simp only [wfVal, wfList, Bool.and_eq_true] at hw
        exact hw
      have h1 := fuelVal_le w hws.1
      have h2 := fuelL_le t hws.2
      simp only [fuelVal, fuelL, dumpsVal, List.length_cons,
        List.length_append, List.length_nil]
      omega
  | obj fs =>
    cases fs with
    | fnil => simp [fuelVal, fuelF, dumpsVal]
    | fcons k w t =>
      have hwv : wfVal w = true := by
        simp only [wfVal, wfFields, Bool.and_eq_true] at hw
        exact hw.2.1
      have hwt : wfFields t = true := by
        simp only [wfVal, wfFields, Bool.and_eq_true] at hw
        exact hw.2.2
      have h1 := fuelVal_le w hwv
      have h2 := fuelF_le t hwt
      simp only [fuelVal, fuelF, dumpsVal, encStrChars, List.length_cons,
        List.length_append, List.length_nil]
      omega
  | null =>
    obtain ⟨c, r, hcr, _⟩ := dumpsVal_head .null hw
    simp only [fuelVal, hcr, List.length_cons]
    omega
  | bool b =>
    obtain ⟨c, r, hcr, _⟩ := dumpsVal_head (.bool b) hw
    simp only [fuelVal, hcr, List.length_cons]
    omega
  | num n =>
    obtain ⟨c, r, hcr, _⟩ := dumpsVal_head (.num n) hw
    simp only [fuelVal, hcr, List.length_cons]
    omega
  | dec neg ip fp ex =>
    obtain ⟨c, r, hcr, _⟩ := dumpsVal_head (.dec neg ip fp ex) hw
    simp only [fuelVal, hcr, List.length_cons]
    omega
  | nan =>
    obtain ⟨c, r, hcr, _⟩ := dumpsVal_head .nan hw
    simp only [fuelVal, hcr, List.length_cons]
    omega
  | inf b =>
    obtain ⟨c, r, hcr, _⟩ := dumpsVal_head (.inf b) hw
    simp only [fuelVal, hcr, List.length_cons]
    omega
  | str ss =>
    obtain ⟨c, r, hcr, _⟩ := dumpsVal_head (.str ss) hw
    simp only [fuelVal, hcr, List.length_cons]
    omega

theorem fuelL_le (t : JsonList) (hw : wfList t = true) :
    fuelL t ≤ 2 * (dumpsItems t).length := by
  cases t with
  | nil => simp [fuelL, dumpsItems]
  | cons w t2 =>
    have hws : wfVal w = true ∧ wfList t2 = true := by
      simp only [wfList, Bool.and_eq_true] at hw
      exact hw
    have h1 := fuelVal_le w hws.1
    have h2 := fuelL_le t2 hws.2
    simp only [fuelL, dumpsItems, List.length_cons, List.length_append]
    omega

theorem fuelF_le (t : JsonFields) (hw : wfFields t = true) :
    fuelF t ≤ 2 * (dumpsFields t).length := by
  cases t with
  | fnil => simp [fuelF, dumpsFields]
  | fcons k w t2 =>
    have hws : wfVal w = true ∧ wfFields t2 = true := by
      simp only [wfFields, Bool.and_eq_true] at hw
      exact hw
    have h1 := fuelVal_le w hws.1
    have h2 := fuelF_le t2 hws.2
    simp only [fuelF, dumpsFields, encStrChars, List.length_cons,
      List.length_append, List.length_nil]
    omega

end

theorem loadsDumps (v : Json) (hw : wfVal v = true) :
    loadsChars (dumpsVal v) = .ok v := by
  obtain ⟨c, r, hcr, hc1, hc2, hc3, hc4⟩ := dumpsVal_head v hw
  have hbom : loadsChars (dumpsVal v) = loadsBody (dumpsVal v) := by
    rw [hcr]
    simp only [loadsChars,
      char_beq_false c (Char.ofNat 0xfeff) (show c.toNat ≠ 65279 by omega),
      Bool.false_eq_true, if_false]
  rw [hbom]
  simp only [loadsBody]
  have hsw : skipWs (dumpsVal v) 0 = (dumpsVal v, 0) := by
    rw [hcr]
    exact skipWs_no c r 0 (not_jsonWs_of_toNat c hc1 hc2)
  rw [hsw]
  have hso := scanOnceRT v (2 * (dumpsVal v).length + 2) [] 0
    (by have := fuelVal_le v hw; omega) hw (notValExt_nil v)
  rw [List.append_nil] at hso
  simp only []
  rw [hso]
  rfl

theorem safeJson_dumps (v : Json) (hw : wfVal v = true) :
    safeJson (dumpsStr v) = v := by
  show safeJsonChars (dumpsVal v) = v
  apply safeJson_of_ok
  rw [dumps_defence v hw]
  exact loadsDumps v hw

/-- Claim C7: round-trip stability.  Whenever the decoder succeeds on an
input — through the strict parse or through the single repair attempt — and
returns the structured value `v`, running the decoder on the standard
re-serialization `json.dumps` of `v` returns exactly `v` again. -/
theorem claim7_roundtrip (cs : List Char) (v : Json)
    (h : decodeSuccess cs v) : safeJson (dumpsStr v) = v := by
  rcases h with h | ⟨e, fixed, _, _, _, h⟩
  · exact safeJson_dumps v (loads_wf _ v h)
  · exact safeJson_dumps v (loads_wf _ v h)

theorem claim7_witness :
    decodeSuccess c7wit.data
      (.arr (.cons (.num 1) (.cons (.str "a") .nil))) ∧
    safeJson (dumpsStr (.arr (.cons (.num 1) (.cons (.str "a") .nil)))) =
      .arr (.cons (.num 1) (.cons (.str "a") .nil)) :=
  ⟨Or.inl (by rfl),
    claim7_roundtrip c7wit.data _ (Or.inl (by rfl))⟩

end HotelReview
